import Mathlib

/-!
Verification of the Palace-gui repository against its natural-language
specification.

The development shallowly embeds the two independent pieces of the
repository:

* `src/tools/infer_schema.py` and `src/tests/test_schema.py`: JSON values,
  the type classifier `value_type`, the schema accumulator `merge_schema`,
  the manual-override pass `apply_manual_rules`, the emitters
  `schema_to_json` / `write_report`, and the test-side `validate` function.
* `src/app.py`: the settings record, the settings save/load round trip, and
  generation of the `run_palace.sh` script.

Modelling conventions:

* Python `set` objects are observed by the program only through `sorted(...)`
  at output time; they are embedded as duplicate-free lists maintained in
  sorted order by `sInsert` (the canonical representation of a finite set of
  strings).
* Python `dict` objects used as schema nodes are observed only through key
  lookup and key-sorted serialization (`json.dumps(..., sort_keys=True)` and
  `sorted(...keys())`); they are embedded as association lists maintained in
  strictly increasing key order.
* Python numbers are embedded as `Int`; none of the verified claims inspects
  a numeric value (only its JSON kind), so float/int distinctions are
  immaterial here.
* Fallible operations (settings-file reading, the example-loading guard in
  `main`) are embedded with `Option`/`Except`.
-/

set_option maxHeartbeats 1600000
set_option maxRecDepth 4000

namespace PalaceGui

/-- Python `sep.join(parts)`. -/
def pyJoin (sep : String) : List String → String
  | [] => ""
  | [x] => x
  | x :: y :: rest => x ++ sep ++ pyJoin sep (y :: rest)

/-- Insert a string into a sorted duplicate-free list (Python `set.add`,
with the set kept in its canonical sorted-list form). -/
def sInsert (x : String) : List String → List String
  | [] => [x]
  | h :: t =>
    if x < h then x :: h :: t
    else if x = h then h :: t
    else h :: sInsert x t

/-- Python `set.update(xs)`: insert every element of `xs`. -/
def sInsertAll (l : List String) (xs : List String) : List String :=
  xs.foldl (fun acc x => sInsert x acc) l

/-- A parsed JSON value as produced by `json.loads`.  The `other`
constructor stands for any non-JSON Python object, reachable only through
direct calls to `value_type` (its catch-all `return "unknown"` branch). -/
inductive JVal where
  | null
  | bool (b : Bool)
  | num (n : Int)
  | str (s : String)
  | obj (fields : List (String × JVal))
  | arr (elems : List JVal)
  | other
deriving Repr

/-- Function `value_type` from `src/tools/infer_schema.py` (the identical copy in
`src/tests/test_schema.py` is the same function).  Python booleans are
instances of `int`, but the `isinstance(value, bool)` test runs first and
the number test excludes `bool` again, so booleans always classify as
`"boolean"`; the embedding's separate constructors reflect exactly that
branch order. -/
def value_type : JVal → String
  | .null => "null"
  | .bool _ => "boolean"
  | .num _ => "number"
  | .str _ => "string"
  | .obj _ => "object"
  | .arr _ => "array"
  | .other => "unknown"

/-- A schema node of the inference tool: the working dictionary with keys
`_types`, `properties`, `items`, `required`, `enum`, `minItems`.
`properties`/`items` distinguish absent from present-but-empty (both states
are observable in the emitted JSON); `_types`/`required`/`enum` are Python
sets, for which "absent" and "empty" are indistinguishable everywhere in
the source (`schema.get(..., [])`, truthiness, `setdefault(...).add`). -/
inductive Schema where
  | mk (types : List String)
       (properties : Option (List (String × Schema)))
       (items : Option Schema)
       (required : List String)
       (enum : List String)
       (minItems : Option Int) : Schema
deriving Repr

def Schema.types : Schema → List String
  | .mk t _ _ _ _ _ => t

def Schema.properties : Schema → Option (List (String × Schema))
  | .mk _ p _ _ _ _ => p

def Schema.items : Schema → Option Schema
  | .mk _ _ i _ _ _ => i

def Schema.required : Schema → List String
  | .mk _ _ _ r _ _ => r

def Schema.enum : Schema → List String
  | .mk _ _ _ _ e _ => e

def Schema.minItems : Schema → Option Int
  | .mk _ _ _ _ _ m => m

/-- The fresh empty schema dictionary `{}`. -/
def Schema.empty : Schema := .mk [] none none [] [] none

/-- Python `schema.setdefault("_types", set()).add(t)`. -/
def Schema.addType : Schema → String → Schema
  | .mk t p i r e m, x => .mk (sInsert x t) p i r e m

def Schema.setProps : Schema → List (String × Schema) → Schema
  | .mk t _ i r e m, p => .mk t (some p) i r e m

def Schema.setItems : Schema → Schema → Schema
  | .mk t p _ r e m, i => .mk t p (some i) r e m

/-- Read side of `schema.setdefault("properties", {})`. -/
def Schema.propsD (s : Schema) : List (String × Schema) :=
  s.properties.getD []

/-- Read side of `schema.setdefault("items", {})`. -/
def Schema.itemsD (s : Schema) : Schema :=
  s.items.getD Schema.empty

/-- First-match association-list lookup (Python `dict[key]` / `key in dict`). -/
def alookup {α : Type} (k : String) : List (String × α) → Option α
  | [] => none
  | (k', v) :: rest => if k' = k then some v else alookup k rest

mutual
/-- Function `merge_schema` from `src/tools/infer_schema.py`: record the value's
kind, then recurse into object properties / array items.  The Python
function mutates `schema` in place; the embedding returns the updated
node. -/
def merge_schema (s : Schema) (v : JVal) : Schema :=
  let s1 := s.addType (value_type v)
  match v with
  | .obj fields => s1.setProps (mergeProps s1.propsD fields)
  | .arr elems => s1.setItems (mergeItems s1.itemsD elems)
  | _ => s1
termination_by (sizeOf v, 0, 0)

/-- The `for key, child in value.items()` loop of `merge_schema`. -/
def mergeProps (props : List (String × Schema)) (fields : List (String × JVal)) :
    List (String × Schema) :=
  match fields with
  | [] => props
  | (k, c) :: rest => mergeProps (updProp props k c) rest
termination_by (sizeOf fields, 0, 0)

/-- One loop step: `child_schema = properties.setdefault(key, {});
merge_schema(child_schema, child)`, on the key-sorted association list. -/
def updProp (props : List (String × Schema)) (k : String) (c : JVal) :
    List (String × Schema) :=
  match props with
  | [] => [(k, merge_schema Schema.empty c)]
  | (k', s') :: rest =>
    if k < k' then (k, merge_schema Schema.empty c) :: (k', s') :: rest
    else if k = k' then (k', merge_schema s' c) :: rest
    else (k', s') :: updProp rest k c
termination_by (sizeOf c, 1, sizeOf props)

/-- The `for item in value` loop of `merge_schema`. -/
def mergeItems (s : Schema) (elems : List JVal) : Schema :=
  match elems with
  | [] => s
  | x :: rest => mergeItems (merge_schema s x) rest
termination_by (sizeOf elems, 0, 0)
end

/-- C10: `value_type` is total with range
{null, boolean, number, string, object, array, unknown}; every boolean
classifies as `"boolean"` and never as `"number"` (the `isinstance(value,
bool)` branch precedes and is excluded from the number branch). -/
theorem c10_value_type_total (v : JVal) :
    value_type v ∈ ["null", "boolean", "number", "string", "object", "array", "unknown"]
    ∧ (∀ b : Bool, value_type (JVal.bool b) = "boolean"
        ∧ value_type (JVal.bool b) ≠ "number") := by
  refine ⟨?_, fun b => ⟨rfl, by simp [value_type]⟩⟩
  cases v <;> simp [value_type]

theorem Schema.ext_iff {t p i r e m t' p' i' r' e' m'} :
    (Schema.mk t p i r e m = Schema.mk t' p' i' r' e' m')
    ↔ (t = t' ∧ p = p' ∧ i = i' ∧ r = r' ∧ e = e' ∧ m = m') := by
  constructor
  · intro h; injection h with h1 h2 h3 h4 h5 h6; exact ⟨h1, h2, h3, h4, h5, h6⟩
  · rintro ⟨rfl, rfl, rfl, rfl, rfl, rfl⟩; rfl

theorem Schema.eq_of_projections {s t : Schema}
    (h1 : s.types = t.types) (h2 : s.properties = t.properties)
    (h3 : s.items = t.items) (h4 : s.required = t.required)
    (h5 : s.enum = t.enum) (h6 : s.minItems = t.minItems) : s = t := by
  cases s; cases t
  simp only [Schema.types, Schema.properties, Schema.items, Schema.required,
    Schema.enum, Schema.minItems] at h1 h2 h3 h4 h5 h6
  exact Schema.ext_iff.mpr ⟨h1, h2, h3, h4, h5, h6⟩

@[simp] theorem merge_types (s : Schema) (v : JVal) :
    (merge_schema s v).types = sInsert (value_type v) s.types := by
  cases s with
  | mk t p i r e m =>
    cases v <;> simp [merge_schema, Schema.addType, Schema.setProps, Schema.setItems,
      Schema.types]

@[simp] theorem merge_required (s : Schema) (v : JVal) :
    (merge_schema s v).required = s.required := by
  cases s with
  | mk t p i r e m =>
    cases v <;> simp [merge_schema, Schema.addType, Schema.setProps, Schema.setItems,
      Schema.required]

@[simp] theorem merge_enum (s : Schema) (v : JVal) :
    (merge_schema s v).enum = s.enum := by
  cases s with
  | mk t p i r e m =>
    cases v <;> simp [merge_schema, Schema.addType, Schema.setProps, Schema.setItems,
      Schema.enum]

@[simp] theorem merge_minItems (s : Schema) (v : JVal) :
    (merge_schema s v).minItems = s.minItems := by
  cases s with
  | mk t p i r e m =>
    cases v <;> simp [merge_schema, Schema.addType, Schema.setProps, Schema.setItems,
      Schema.minItems]

theorem merge_properties_obj (s : Schema) (fields : List (String × JVal)) :
    (merge_schema s (.obj fields)).properties = some (mergeProps s.propsD fields) := by
  cases s with
  | mk t p i r e m =>
    simp [merge_schema, Schema.addType, Schema.setProps, Schema.properties, Schema.propsD]

theorem merge_properties_ne_obj (s : Schema) (v : JVal)
    (h : ∀ fields, v ≠ .obj fields) :
    (merge_schema s v).properties = s.properties := by
  cases s with
  | mk t p i r e m =>
    cases v <;> first
      | exact absurd rfl (h _)
      | simp [merge_schema, Schema.addType, Schema.setItems, Schema.properties]

theorem merge_items_arr (s : Schema) (elems : List JVal) :
    (merge_schema s (.arr elems)).items = some (mergeItems s.itemsD elems) := by
  cases s with
  | mk t p i r e m =>
    simp [merge_schema, Schema.addType, Schema.setItems, Schema.items, Schema.itemsD]

theorem merge_items_ne_arr (s : Schema) (v : JVal)
    (h : ∀ elems, v ≠ .arr elems) :
    (merge_schema s v).items = s.items := by
  cases s with
  | mk t p i r e m =>
    cases v <;> first
      | exact absurd rfl (h _)
      | simp [merge_schema, Schema.addType, Schema.setProps, Schema.items]

/-! ### Sorted-insert machinery

`sInsert` (string sets) and `sput` (key-sorted association lists) are the
canonical-form counterparts of Python `set.add` and `dict.setdefault`; the
lemmas below show insertions commute, which is what makes the inference
pipeline independent of file-enumeration order. -/

theorem sInsert_comm_lt (x y : String) (hxy : x < y) :
    ∀ l, sInsert x (sInsert y l) = sInsert y (sInsert x l) := by
  intro l
  induction l with
  | nil => simp [sInsert, hxy, lt_asymm hxy, hxy.ne']
  | cons hd tl ih =>
    rcases lt_trichotomy x hd with hx | hx | hx <;>
      rcases lt_trichotomy y hd with hy | hy | hy
    · simp [sInsert, hx, hy, hxy, lt_asymm hxy, hxy.ne']
    · subst hy; simp [sInsert, hxy, lt_asymm hxy, hxy.ne', lt_irrefl]
    · simp [sInsert, hx, lt_asymm hy, hy.ne', lt_asymm hxy, hxy.ne']
    · exact absurd (hx ▸ hy) (lt_asymm hxy)
    · exact absurd (hx.trans hy.symm) hxy.ne
    · subst hx; simp [sInsert, hxy, lt_asymm hxy, hxy.ne', lt_irrefl]
    · exact absurd (lt_trans hy hx) (lt_asymm hxy)
    · exact absurd (hy ▸ hx) (lt_asymm hxy)
    · simp [sInsert, lt_asymm hx, hx.ne', lt_asymm hy, hy.ne', ih]

theorem sInsert_comm (x y : String) (l : List String) :
    sInsert x (sInsert y l) = sInsert y (sInsert x l) := by
  rcases lt_trichotomy x y with h | h | h
  · exact sInsert_comm_lt x y h l
  · subst h; rfl
  · exact (sInsert_comm_lt y x h l).symm

/-- Generic sorted upsert on a key-sorted association list: Python
`d.setdefault(k, fresh)` followed by an in-place update of the entry,
expressed as one functional update `f : Option α → α` applied to the
previous binding (`none` when the key was absent). -/
def sput {α : Type} (f : Option α → α) (k : String) :
    List (String × α) → List (String × α)
  | [] => [(k, f none)]
  | (k', v) :: rest =>
    if k < k' then (k, f none) :: (k', v) :: rest
    else if k = k' then (k', f (some v)) :: rest
    else (k', v) :: sput f k rest

theorem sput_comm_lt {α : Type} (f g : Option α → α) (k1 k2 : String)
    (h12 : k1 < k2) :
    ∀ l, sput g k2 (sput f k1 l) = sput f k1 (sput g k2 l) := by
  intro l
  induction l with
  | nil => simp [sput, h12, lt_asymm h12, h12.ne']
  | cons hd tl ih =>
    obtain ⟨k', v⟩ := hd
    rcases lt_trichotomy k1 k' with h1 | h1 | h1 <;>
      rcases lt_trichotomy k2 k' with h2 | h2 | h2
    · simp [sput, h1, h2, h12, lt_asymm h12, h12.ne']
    · subst h2; simp [sput, h1, h12, lt_asymm h12, h12.ne', lt_irrefl]
    · simp [sput, h1, lt_asymm h2, h2.ne', h12, lt_asymm h12, h12.ne']
    · exact absurd (h1 ▸ h2) (lt_asymm h12)
    · exact absurd (h1.trans h2.symm) h12.ne
    · subst h1; simp [sput, h12, lt_asymm h12, h12.ne', lt_irrefl, lt_asymm h2, h2.ne']
    · exact absurd (lt_trans h2 h1) (lt_asymm h12)
    · exact absurd (h2 ▸ h1) (lt_asymm h12)
    · simp [sput, lt_asymm h1, h1.ne', lt_asymm h2, h2.ne', ih]

theorem sput_comm_eq {α : Type} (f g : Option α → α) (k : String)
    (hfg : ∀ v : Option α, g (some (f v)) = f (some (g v))) :
    ∀ l, sput g k (sput f k l) = sput f k (sput g k l) := by
  intro l
  induction l with
  | nil => simp [sput, lt_irrefl, hfg none]
  | cons hd tl ih =>
    obtain ⟨k', v⟩ := hd
    rcases lt_trichotomy k k' with h | h | h
    · simp [sput, h, lt_irrefl, hfg]
    · subst h; simp [sput, lt_irrefl, hfg]
    · simp [sput, lt_asymm h, h.ne', ih]

theorem sput_comm {α : Type} (f g : Option α → α) (k1 k2 : String)
    (hfg : k1 = k2 → ∀ v : Option α, g (some (f v)) = f (some (g v))) (l : List (String × α)) :
    sput g k2 (sput f k1 l) = sput f k1 (sput g k2 l) := by
  rcases lt_trichotomy k1 k2 with h | h | h
  · exact sput_comm_lt f g k1 k2 h l
  · subst h; exact sput_comm_eq f g k1 (hfg rfl) l
  · exact (sput_comm_lt g f k2 k1 h l).symm

/-- Keys strictly increase along the association list (the canonical form
of a Python dict in this embedding). -/
def KSorted {α : Type} (l : List (String × α)) : Prop :=
  l.Pairwise (fun a b => a.1 < b.1)

theorem KSorted.nil {α : Type} : KSorted ([] : List (String × α)) := List.Pairwise.nil

theorem sput_key_mem {α : Type} (f : Option α → α) (k : String) :
    ∀ (l : List (String × α)) (b : String × α), b ∈ sput f k l →
      b.1 = k ∨ b.1 ∈ l.map Prod.fst := by
  intro l
  induction l with
  | nil => intro b hb; simp [sput] at hb; simp [hb]
  | cons hd tl ih =>
    obtain ⟨k', v⟩ := hd
    intro b hb
    rcases lt_trichotomy k k' with h | h | h
    · rw [sput, if_pos h] at hb
      rcases List.mem_cons.mp hb with hb | hb
      · simp [hb]
      · right; exact List.mem_map.mpr ⟨b, hb, rfl⟩
    · rw [sput, if_neg (by simp [h, lt_irrefl]), if_pos h] at hb
      rcases List.mem_cons.mp hb with hb | hb
      · simp [hb]
      · right
        exact List.mem_map.mpr ⟨b, List.mem_cons_of_mem _ hb, rfl⟩
    · rw [sput, if_neg (lt_asymm h), if_neg h.ne'] at hb
      rcases List.mem_cons.mp hb with hb | hb
      · simp [hb]
      · rcases ih b hb with h1 | h1
        · exact Or.inl h1
        · right; simp only [List.map_cons, List.mem_cons]; exact Or.inr h1

theorem sput_ksorted {α : Type} (f : Option α → α) (k : String) :
    ∀ {l : List (String × α)}, KSorted l → KSorted (sput f k l) := by
  intro l hl
  induction l with
  | nil => simp [sput, KSorted]
  | cons hd tl ih =>
    obtain ⟨k', v⟩ := hd
    rw [KSorted, List.pairwise_cons] at hl
    obtain ⟨hhd, htl⟩ := hl
    rcases lt_trichotomy k k' with h | h | h
    · rw [KSorted, sput, if_pos h]
      refine List.Pairwise.cons ?_ (List.Pairwise.cons hhd htl)
      intro b hb
      rcases List.mem_cons.mp hb with hb | hb
      · simp [hb, h]
      · exact lt_trans h (hhd b hb)
    · rw [KSorted, sput, if_neg (by simp [h, lt_irrefl]), if_pos h]
      exact List.Pairwise.cons hhd htl
    · rw [KSorted, sput, if_neg (lt_asymm h), if_neg h.ne']
      refine List.Pairwise.cons ?_ (ih htl)
      intro b hb
      rcases sput_key_mem f k tl b hb with h1 | h1
      · rw [h1]; exact h
      · obtain ⟨c, hc, hck⟩ := List.mem_map.mp h1
        exact hck ▸ hhd c hc


theorem alookup_eq_none_of_forall_ne {α : Type} {k : String} :
    ∀ {l : List (String × α)}, (∀ b ∈ l, b.1 ≠ k) → alookup k l = none := by
  intro l
  induction l with
  | nil => intro _; rfl
  | cons hd tl ih =>
    intro h
    obtain ⟨k', v⟩ := hd
    rw [alookup, if_neg (h (k', v) (List.mem_cons_self _ _))]
    exact ih fun b hb => h b (List.mem_cons_of_mem _ hb)

theorem alookup_sput_self {α : Type} (f : Option α → α) (k : String) :
    ∀ {l : List (String × α)}, KSorted l →
      alookup k (sput f k l) = some (f (alookup k l)) := by
  intro l hl
  induction l with
  | nil => simp [sput, alookup]
  | cons hd tl ih =>
    obtain ⟨k', v⟩ := hd
    rw [KSorted, List.pairwise_cons] at hl
    obtain ⟨hhd, htl⟩ := hl
    rcases lt_trichotomy k k' with h | h | h
    · rw [sput, if_pos h, alookup, if_pos rfl, alookup, if_neg h.ne']
      rw [alookup_eq_none_of_forall_ne]
      intro b hb
      exact (lt_trans h (hhd b hb)).ne'
    · subst h
      rw [sput, if_neg (by simp [lt_irrefl]), if_pos rfl, alookup, if_pos rfl,
        alookup, if_pos rfl]
    · rw [sput, if_neg (lt_asymm h), if_neg h.ne', alookup, if_neg (h.ne),
        alookup, if_neg (h.ne)]
      exact ih htl

theorem alookup_sput_ne {α : Type} (f : Option α → α) (k k2 : String)
    (hne : k2 ≠ k) :
    ∀ (l : List (String × α)), alookup k2 (sput f k l) = alookup k2 l := by
  intro l
  induction l with
  | nil => simp [sput, alookup, Ne.symm hne]
  | cons hd tl ih =>
    obtain ⟨k', v⟩ := hd
    rcases lt_trichotomy k k' with h | h | h
    · rw [sput, if_pos h, alookup, if_neg (fun hh => hne hh.symm)]
    · subst h
      by_cases hk2 : k = k2
      · exact absurd hk2.symm hne
      · rw [sput, if_neg (by simp [lt_irrefl]), if_pos rfl, alookup, if_neg hk2,
          alookup, if_neg hk2]
    · by_cases hk2 : k' = k2
      · rw [sput, if_neg (lt_asymm h), if_neg h.ne', alookup, if_pos hk2,
          alookup, if_pos hk2]
      · rw [sput, if_neg (lt_asymm h), if_neg h.ne', alookup, if_neg hk2,
          alookup, if_neg hk2, ih]

/-- The step `updProp` is the sorted upsert whose payload merges the child value. -/
theorem updProp_eq_sput (k : String) (c : JVal) :
    ∀ (props : List (String × Schema)),
      updProp props k c = sput (fun o => merge_schema (o.getD Schema.empty) c) k props := by
  intro props
  induction props with
  | nil => simp [updProp, sput]
  | cons hd tl ih =>
    obtain ⟨k', s'⟩ := hd
    rw [updProp, sput]
    rcases lt_trichotomy k k' with h | h | h
    · rw [if_pos h, if_pos h]; rfl
    · rw [if_neg (by simp [h, lt_irrefl]), if_pos h, if_neg (by simp [h, lt_irrefl]), if_pos h]
      rfl
    · rw [if_neg (lt_asymm h), if_neg h.ne', if_neg (lt_asymm h), if_neg h.ne', ih]

theorem mergeProps_eq_foldl :
    ∀ (fields : List (String × JVal)) (props : List (String × Schema)),
      mergeProps props fields = fields.foldl (fun P kc => updProp P kc.1 kc.2) props := by
  intro fields
  induction fields with
  | nil => intro props; simp [mergeProps]
  | cons hd tl ih =>
    intro props
    obtain ⟨k, c⟩ := hd
    rw [mergeProps, List.foldl_cons, ih]

theorem mergeItems_eq_foldl :
    ∀ (elems : List JVal) (s : Schema),
      mergeItems s elems = elems.foldl merge_schema s := by
  intro elems
  induction elems with
  | nil => intro s; simp [mergeItems]
  | cons x rest ih =>
    intro s
    rw [mergeItems, List.foldl_cons, ih]

theorem foldl_push {α β γ : Type} (f : γ → α → γ) (g : γ → β → γ) (a : α) :
    ∀ (lb : List β) (c : γ), (∀ (c' : γ) (b : β), b ∈ lb → g (f c' a) b = f (g c' b) a) →
      List.foldl g (f c a) lb = f (List.foldl g c lb) a := by
  intro lb
  induction lb with
  | nil => intro c _; rfl
  | cons b lb ih =>
    intro c h
    simp only [List.foldl_cons]
    rw [h c b (List.mem_cons_self b lb)]
    exact ih (g c b) fun c' b' hb' => h c' b' (List.mem_cons_of_mem _ hb')

theorem foldl_foldl_swap {α β γ : Type} (f : γ → α → γ) (g : γ → β → γ)
    (la : List α) (lb : List β)
    (h : ∀ (c : γ) (a : α), a ∈ la → ∀ (b : β), b ∈ lb → g (f c a) b = f (g c b) a) :
    ∀ c, List.foldl g (List.foldl f c la) lb = List.foldl f (List.foldl g c lb) la := by
  induction la with
  | nil => intro c; rfl
  | cons a la ih =>
    intro c
    simp only [List.foldl_cons]
    rw [ih (fun c' a' ha' b hb => h c' a' (List.mem_cons_of_mem _ ha') b hb) (f c a),
      foldl_push f g a lb c (fun c' b hb => h c' a (List.mem_cons_self a la) b hb)]

/-- Fold over a permuted list with a right-commutative step. -/
theorem foldl_perm {α γ : Type} {f : γ → α → γ}
    (h : ∀ (c : γ) (x y : α), f (f c x) y = f (f c y) x)
    {l1 l2 : List α} (p : l1.Perm l2) : ∀ c, List.foldl f c l1 = List.foldl f c l2 := by
  induction p with
  | nil => intro c; rfl
  | cons x _ ih => intro c; simp only [List.foldl_cons]; exact ih _
  | swap x y l => intro c; simp only [List.foldl_cons]; rw [h]
  | trans _ _ ih1 ih2 => intro c; rw [ih1, ih2]

theorem JVal.one_le_sizeOf_val (v : JVal) : 1 ≤ sizeOf v := by
  cases v <;> simp_arith

theorem merge_props_split (s : Schema) (v : JVal) :
    (merge_schema s v).properties =
      (match v with
        | .obj fields => some (mergeProps s.propsD fields)
        | _ => s.properties) := by
  cases v with
  | obj fields => exact merge_properties_obj s fields
  | null => exact merge_properties_ne_obj s _ (by intro _ h; cases h)
  | bool b => exact merge_properties_ne_obj s _ (by intro _ h; cases h)
  | num n => exact merge_properties_ne_obj s _ (by intro _ h; cases h)
  | str str => exact merge_properties_ne_obj s _ (by intro _ h; cases h)
  | arr elems => exact merge_properties_ne_obj s _ (by intro _ h; cases h)
  | other => exact merge_properties_ne_obj s _ (by intro _ h; cases h)

theorem merge_propsD_split (s : Schema) (v : JVal) :
    (merge_schema s v).propsD =
      (match v with
        | .obj fields => mergeProps s.propsD fields
        | _ => s.propsD) := by
  rw [Schema.propsD, merge_props_split]
  cases v <;> simp [Schema.propsD]

theorem merge_items_split (s : Schema) (v : JVal) :
    (merge_schema s v).items =
      (match v with
        | .arr elems => some (mergeItems s.itemsD elems)
        | _ => s.items) := by
  cases v with
  | arr elems => exact merge_items_arr s elems
  | null => exact merge_items_ne_arr s _ (by intro _ h; cases h)
  | bool b => exact merge_items_ne_arr s _ (by intro _ h; cases h)
  | num n => exact merge_items_ne_arr s _ (by intro _ h; cases h)
  | str str => exact merge_items_ne_arr s _ (by intro _ h; cases h)
  | obj fields => exact merge_items_ne_arr s _ (by intro _ h; cases h)
  | other => exact merge_items_ne_arr s _ (by intro _ h; cases h)

theorem merge_itemsD_split (s : Schema) (v : JVal) :
    (merge_schema s v).itemsD =
      (match v with
        | .arr elems => mergeItems s.itemsD elems
        | _ => s.itemsD) := by
  rw [Schema.itemsD, merge_items_split]
  cases v <;> simp [Schema.itemsD]

theorem mergeProps_swap (fa fb : List (String × JVal)) (P : List (String × Schema))
    (h : ∀ p1 ∈ fa, ∀ p2 ∈ fb, ∀ t : Schema,
      merge_schema (merge_schema t p1.2) p2.2 = merge_schema (merge_schema t p2.2) p1.2) :
    mergeProps (mergeProps P fa) fb = mergeProps (mergeProps P fb) fa := by
  rw [mergeProps_eq_foldl, mergeProps_eq_foldl, mergeProps_eq_foldl, mergeProps_eq_foldl]
  apply foldl_foldl_swap
  intro c p1 h1 p2 h2
  rw [updProp_eq_sput, updProp_eq_sput, updProp_eq_sput, updProp_eq_sput]
  apply sput_comm
  intro _ v
  exact h p1 h1 p2 h2 _

theorem mergeItems_swap (ea eb : List JVal) (s : Schema)
    (h : ∀ x ∈ ea, ∀ y ∈ eb, ∀ t : Schema,
      merge_schema (merge_schema t x) y = merge_schema (merge_schema t y) x) :
    mergeItems (mergeItems s ea) eb = mergeItems (mergeItems s eb) ea := by
  rw [mergeItems_eq_foldl, mergeItems_eq_foldl, mergeItems_eq_foldl, mergeItems_eq_foldl]
  exact foldl_foldl_swap merge_schema merge_schema ea eb
    (fun c a ha b hb => h a ha b hb c) s

theorem merge_comm_bounded : ∀ (n : Nat) (a b : JVal) (s : Schema),
    sizeOf a + sizeOf b ≤ n →
    merge_schema (merge_schema s a) b = merge_schema (merge_schema s b) a := by
  intro n
  induction n with
  | zero =>
    intro a b s h
    have := JVal.one_le_sizeOf_val a
    have := JVal.one_le_sizeOf_val b
    omega
  | succ n ih =>
    intro a b s hab
    apply Schema.eq_of_projections
    · rw [merge_types, merge_types, merge_types, merge_types, sInsert_comm]
    · cases a <;> cases b <;>
        simp only [merge_props_split, merge_propsD_split] <;>
        (try (refine congrArg some (mergeProps_swap _ _ s.propsD ?_)
              intro p1 h1 p2 h2 t
              obtain ⟨k1, c1⟩ := p1
              obtain ⟨k2, c2⟩ := p2
              have hs1 := List.sizeOf_lt_of_mem h1
              have hs2 := List.sizeOf_lt_of_mem h2
              simp only [Prod.mk.sizeOf_spec] at hs1 hs2
              simp only [JVal.obj.sizeOf_spec] at hab
              exact ih c1 c2 t (by omega)))
    · cases a <;> cases b <;>
        simp only [merge_items_split, merge_itemsD_split] <;>
        (try (refine congrArg some (mergeItems_swap _ _ s.itemsD ?_)
              intro x hx y hy t
              have hs1 := List.sizeOf_lt_of_mem hx
              have hs2 := List.sizeOf_lt_of_mem hy
              simp only [JVal.arr.sizeOf_spec] at hab
              exact ih x y t (by omega)))
    · rw [merge_required, merge_required, merge_required, merge_required]
    · rw [merge_enum, merge_enum, merge_enum, merge_enum]
    · rw [merge_minItems, merge_minItems, merge_minItems, merge_minItems]

/-- Merging commutes: two `merge_schema` steps in either order yield
the same schema dictionary. -/
theorem merge_comm (a b : JVal) (s : Schema) :
    merge_schema (merge_schema s a) b = merge_schema (merge_schema s b) a :=
  merge_comm_bounded (sizeOf a + sizeOf b) a b s (Nat.le_refl _)

/-! ### Monotonicity of `merge_schema` (claim C9) -/

theorem sInsert_mem (y x : String) : ∀ l, x ∈ l → x ∈ sInsert y l := by
  intro l hx
  induction l with
  | nil => cases hx
  | cons h t ih =>
    rw [sInsert]
    rcases lt_trichotomy y h with hy | hy | hy
    · rw [if_pos hy]; exact List.mem_cons_of_mem _ hx
    · rw [if_neg (by simp [hy, lt_irrefl]), if_pos hy]; exact hx
    · rw [if_neg (lt_asymm hy), if_neg hy.ne']
      rcases List.mem_cons.mp hx with hx | hx
      · exact hx ▸ List.mem_cons_self _ _
      · exact List.mem_cons_of_mem _ (ih hx)

theorem sInsert_self_mem (y : String) : ∀ l, y ∈ sInsert y l := by
  intro l
  induction l with
  | nil => simp [sInsert]
  | cons h t ih =>
    rw [sInsert]
    rcases lt_trichotomy y h with hy | hy | hy
    · rw [if_pos hy]; exact List.mem_cons_self _ _
    · rw [if_neg (by simp [hy, lt_irrefl]), if_pos hy]; exact hy ▸ List.mem_cons_self _ _
    · rw [if_neg (lt_asymm hy), if_neg hy.ne']; exact List.mem_cons_of_mem _ ih

theorem sput_mem_cases {α : Type} (f : Option α → α) (k : String) :
    ∀ (l : List (String × α)) (b : String × α), b ∈ sput f k l →
      b ∈ l ∨ b = (k, f none) ∨ ∃ c, (k, c) ∈ l ∧ b = (k, f (some c)) := by
  intro l
  induction l with
  | nil =>
    intro b hb
    rw [sput] at hb
    rcases List.mem_cons.mp hb with hb | hb
    · exact Or.inr (Or.inl hb)
    · cases hb
  | cons hd tl ih =>
    obtain ⟨k', v⟩ := hd
    intro b hb
    rcases lt_trichotomy k k' with h | h | h
    · rw [sput, if_pos h] at hb
      rcases List.mem_cons.mp hb with hb | hb
      · exact Or.inr (Or.inl hb)
      · exact Or.inl hb
    · subst h
      rw [sput, if_neg (by simp [lt_irrefl]), if_pos rfl] at hb
      rcases List.mem_cons.mp hb with hb | hb
      · exact Or.inr (Or.inr ⟨v, List.mem_cons_self _ _, hb⟩)
      · exact Or.inl (List.mem_cons_of_mem _ hb)
    · rw [sput, if_neg (lt_asymm h), if_neg h.ne'] at hb
      rcases List.mem_cons.mp hb with hb | hb
      · exact Or.inl (hb ▸ List.mem_cons_self _ _)
      · rcases ih b hb with h1 | h1 | ⟨c, hc, hbc⟩
        · exact Or.inl (List.mem_cons_of_mem _ h1)
        · exact Or.inr (Or.inl h1)
        · exact Or.inr (Or.inr ⟨c, List.mem_cons_of_mem _ hc, hbc⟩)

theorem alookup_mem {α : Type} {k : String} {c : α} :
    ∀ {l : List (String × α)}, alookup k l = some c → (k, c) ∈ l := by
  intro l
  induction l with
  | nil => intro h; cases h
  | cons hd tl ih =>
    obtain ⟨k', v⟩ := hd
    intro h
    rw [alookup] at h
    by_cases hk : k' = k
    · rw [if_pos hk] at h
      injection h with h
      exact hk ▸ h ▸ List.mem_cons_self _ _
    · rw [if_neg hk] at h
      exact List.mem_cons_of_mem _ (ih h)

/-- Well-formed schema dictionary: every property list is in strictly
increasing key order (the canonical form of a Python dict, whose keys are
unique), recursively at every level. -/
inductive Schema.WF : Schema → Prop where
  | mk : ∀ (t : List String) (p : Option (List (String × Schema))) (i : Option Schema)
      (r e : List String) (m : Option Int),
      (∀ ps, p = some ps → KSorted ps) →
      (∀ ps, p = some ps → ∀ kc, kc ∈ ps → Schema.WF kc.2) →
      (∀ it, i = some it → Schema.WF it) →
      Schema.WF (.mk t p i r e m)

theorem Schema.WF.props_sorted {s : Schema} (h : Schema.WF s) :
    ∀ ps, s.properties = some ps → KSorted ps := by
  cases h with
  | mk t p i r e m hp1 hp2 hi => exact hp1

theorem Schema.WF.props_wf {s : Schema} (h : Schema.WF s) :
    ∀ ps, s.properties = some ps → ∀ kc, kc ∈ ps → Schema.WF kc.2 := by
  cases h with
  | mk t p i r e m hp1 hp2 hi => exact hp2

theorem Schema.WF.items_part {s : Schema} (h : Schema.WF s) :
    ∀ it, s.items = some it → Schema.WF it := by
  cases h with
  | mk t p i r e m hp1 hp2 hi => exact hi

theorem Schema.WF.empty_wf : Schema.WF Schema.empty :=
  Schema.WF.mk _ _ _ _ _ _ (fun _ hps => by cases hps) (fun _ hps => by cases hps)
    (fun _ hit => by cases hit)

theorem Schema.WF.propsD_sorted {s : Schema} (h : Schema.WF s) : KSorted s.propsD := by
  rw [Schema.propsD]
  cases hp : s.properties with
  | none => exact List.Pairwise.nil
  | some ps => simpa using h.props_sorted ps hp

theorem Schema.WF.propsD_wf {s : Schema} (h : Schema.WF s) :
    ∀ kc ∈ s.propsD, Schema.WF kc.2 := by
  rw [Schema.propsD]
  cases hp : s.properties with
  | none => simp
  | some ps => simpa using h.props_wf ps hp

theorem Schema.WF.itemsD_wf {s : Schema} (h : Schema.WF s) : Schema.WF s.itemsD := by
  rw [Schema.itemsD]
  cases hi : s.items with
  | none => exact Schema.WF.empty_wf
  | some it => simpa using h.items_part it hi

/-- The monotonicity order on schema dictionaries: all recorded types,
required keys and enum members are kept, the `minItems` entry is
untouched, every recorded property key still maps to a larger child, and
a recorded items sub-schema is still present and larger. -/
inductive Schema.Le : Schema → Schema → Prop where
  | mk : ∀ s t : Schema,
      (∀ x ∈ s.types, x ∈ t.types) →
      (∀ x ∈ s.required, x ∈ t.required) →
      (∀ x ∈ s.enum, x ∈ t.enum) →
      s.minItems = t.minItems →
      (s.properties.isSome → t.properties.isSome) →
      (∀ k c, alookup k s.propsD = some c → (alookup k t.propsD).isSome) →
      (∀ k c c', alookup k s.propsD = some c → alookup k t.propsD = some c' →
        Schema.Le c c') →
      (∀ i, s.items = some i → t.items.isSome) →
      (∀ i i', s.items = some i → t.items = some i' → Schema.Le i i') →
      Schema.Le s t

theorem Schema.Le.types_sub {s t : Schema} (h : Schema.Le s t) :
    ∀ x ∈ s.types, x ∈ t.types := by
  cases h with | mk _ _ h1 h2 h3 h4 h5 h6 h7 h8 h9 => exact h1

theorem Schema.Le.required_sub {s t : Schema} (h : Schema.Le s t) :
    ∀ x ∈ s.required, x ∈ t.required := by
  cases h with | mk _ _ h1 h2 h3 h4 h5 h6 h7 h8 h9 => exact h2

theorem Schema.Le.enum_sub {s t : Schema} (h : Schema.Le s t) :
    ∀ x ∈ s.enum, x ∈ t.enum := by
  cases h with | mk _ _ h1 h2 h3 h4 h5 h6 h7 h8 h9 => exact h3

theorem Schema.Le.minItems_equal {s t : Schema} (h : Schema.Le s t) :
    s.minItems = t.minItems := by
  cases h with | mk _ _ h1 h2 h3 h4 h5 h6 h7 h8 h9 => exact h4

theorem Schema.Le.props_isSome {s t : Schema} (h : Schema.Le s t) :
    s.properties.isSome → t.properties.isSome := by
  cases h with | mk _ _ h1 h2 h3 h4 h5 h6 h7 h8 h9 => exact h5

theorem Schema.Le.props_le {s t : Schema} (h : Schema.Le s t) :
    ∀ k c, alookup k s.propsD = some c →
      ∃ c', alookup k t.propsD = some c' ∧ Schema.Le c c' := by
  cases h with
  | mk _ _ h1 h2 h3 h4 h5 h6 h7 h8 h9 =>
    intro k c hc
    obtain ⟨c', hc'⟩ := Option.isSome_iff_exists.mp (h6 k c hc)
    exact ⟨c', hc', h7 k c c' hc hc'⟩

theorem Schema.Le.items_le {s t : Schema} (h : Schema.Le s t) :
    ∀ i, s.items = some i → ∃ i', t.items = some i' ∧ Schema.Le i i' := by
  cases h with
  | mk _ _ h1 h2 h3 h4 h5 h6 h7 h8 h9 =>
    intro i hi
    obtain ⟨i', hi'⟩ := Option.isSome_iff_exists.mp (h8 i hi)
    exact ⟨i', hi', h9 i i' hi hi'⟩

theorem Schema.one_le_sizeOf_node (s : Schema) : 1 ≤ sizeOf s := by
  cases s; simp_arith

theorem Schema.sizeOf_propsD_child {s : Schema} {k : String} {c : Schema}
    (h : alookup k s.propsD = some c) : sizeOf c < sizeOf s := by
  have hmem := alookup_mem h
  rw [Schema.propsD] at hmem
  cases s with
  | mk t p i r e m =>
    cases p with
    | none => simp [Schema.properties] at hmem
    | some ps =>
      simp only [Schema.properties, Option.getD_some] at hmem
      have h1 := List.sizeOf_lt_of_mem hmem
      simp only [Prod.mk.sizeOf_spec] at h1
      simp only [Schema.mk.sizeOf_spec, Option.some.sizeOf_spec]
      omega

theorem Schema.sizeOf_items_child {s : Schema} {i : Schema}
    (h : s.items = some i) : sizeOf i < sizeOf s := by
  cases s with
  | mk t p it r e m =>
    simp only [Schema.items] at h
    subst h
    simp only [Schema.mk.sizeOf_spec, Option.some.sizeOf_spec]
    omega

theorem Schema.Le.refl_bounded :
    ∀ (n : Nat) (s : Schema), sizeOf s ≤ n → Schema.Le s s := by
  intro n
  induction n with
  | zero =>
    intro s h
    have := Schema.one_le_sizeOf_node s
    omega
  | succ n ih =>
    intro s hs
    refine Schema.Le.mk s s (fun x hx => hx) (fun x hx => hx) (fun x hx => hx) rfl
      (fun h => h) (fun k c hc => by simp [hc]) ?_ (fun i hi => by simp [hi]) ?_
    · intro k c c' hc hc'
      rw [hc] at hc'
      injection hc' with hc'
      subst hc'
      exact ih c (by have := Schema.sizeOf_propsD_child hc; omega)
    · intro i i' hi hi'
      rw [hi] at hi'
      injection hi' with hi'
      subst hi'
      exact ih i (by have := Schema.sizeOf_items_child hi; omega)

theorem Schema.Le.refl (s : Schema) : Schema.Le s s :=
  Schema.Le.refl_bounded (sizeOf s) s (Nat.le_refl _)

theorem Schema.Le.trans_bounded :
    ∀ (n : Nat) (s t u : Schema), sizeOf s ≤ n →
      Schema.Le s t → Schema.Le t u → Schema.Le s u := by
  intro n
  induction n with
  | zero =>
    intro s t u h
    have := Schema.one_le_sizeOf_node s
    omega
  | succ n ih =>
    intro s t u hs hst htu
    refine Schema.Le.mk s u
      (fun x hx => htu.types_sub x (hst.types_sub x hx))
      (fun x hx => htu.required_sub x (hst.required_sub x hx))
      (fun x hx => htu.enum_sub x (hst.enum_sub x hx))
      (hst.minItems_equal.trans htu.minItems_equal)
      (fun h => htu.props_isSome (hst.props_isSome h)) ?_ ?_ ?_ ?_
    · intro k c hc
      obtain ⟨c1, hc1, _⟩ := hst.props_le k c hc
      obtain ⟨c2, hc2, _⟩ := htu.props_le k c1 hc1
      simp [hc2]
    · intro k c c' hc hc'
      obtain ⟨c1, hc1, hle1⟩ := hst.props_le k c hc
      obtain ⟨c2, hc2, hle2⟩ := htu.props_le k c1 hc1
      rw [hc'] at hc2
      injection hc2 with hc2
      subst hc2
      refine ih c c1 c' ?_ hle1 hle2
      have := Schema.sizeOf_propsD_child hc
      omega
    · intro i hi
      obtain ⟨i1, hi1, _⟩ := hst.items_le i hi
      obtain ⟨i2, hi2, _⟩ := htu.items_le i1 hi1
      simp [hi2]
    · intro i i' hi hi'
      obtain ⟨i1, hi1, hle1⟩ := hst.items_le i hi
      obtain ⟨i2, hi2, hle2⟩ := htu.items_le i1 hi1
      rw [hi'] at hi2
      injection hi2 with hi2
      subst hi2
      refine ih i i1 i' ?_ hle1 hle2
      have := Schema.sizeOf_items_child hi
      omega

theorem Schema.Le.trans {s t u : Schema}
    (hst : Schema.Le s t) (htu : Schema.Le t u) : Schema.Le s u :=
  Schema.Le.trans_bounded (sizeOf s) s t u (Nat.le_refl _) hst htu

theorem Schema.WF.of_wf_parts {s : Schema}
    (hp1 : ∀ ps, s.properties = some ps → KSorted ps)
    (hp2 : ∀ ps, s.properties = some ps → ∀ kc, kc ∈ ps → Schema.WF kc.2)
    (hi : ∀ it, s.items = some it → Schema.WF it) : Schema.WF s := by
  cases s
  exact Schema.WF.mk _ _ _ _ _ _ hp1 hp2 hi

theorem alookup_updProp_self {P : List (String × Schema)} (k : String) (c : JVal)
    (hP : KSorted P) :
    alookup k (updProp P k c) =
      some (merge_schema ((alookup k P).getD Schema.empty) c) := by
  rw [updProp_eq_sput, alookup_sput_self _ _ hP]

theorem alookup_updProp_ne {P : List (String × Schema)} (k k2 : String) (c : JVal)
    (hne : k2 ≠ k) : alookup k2 (updProp P k c) = alookup k2 P := by
  rw [updProp_eq_sput, alookup_sput_ne _ _ _ hne]

theorem updProp_ksorted {P : List (String × Schema)} (k : String) (c : JVal)
    (hP : KSorted P) : KSorted (updProp P k c) := by
  rw [updProp_eq_sput]
  exact sput_ksorted _ _ hP

theorem updProp_mem_cases {P : List (String × Schema)} {k : String} {c : JVal}
    {b : String × Schema} (hb : b ∈ updProp P k c) :
    b ∈ P ∨ b = (k, merge_schema Schema.empty c)
      ∨ ∃ c0, (k, c0) ∈ P ∧ b = (k, merge_schema c0 c) := by
  rw [updProp_eq_sput] at hb
  rcases sput_mem_cases _ _ P b hb with h | h | ⟨c0, hc0, hbc⟩
  · exact Or.inl h
  · exact Or.inr (Or.inl h)
  · exact Or.inr (Or.inr ⟨c0, hc0, hbc⟩)

/-- Folding `updProp` over object fields preserves well-formedness of the
property list, provided merging each field value preserves
well-formedness. -/
theorem mergeProps_wf :
    ∀ (fields : List (String × JVal)) (P : List (String × Schema)),
      KSorted P → (∀ kc ∈ P, Schema.WF kc.2) →
      (∀ (k : String) (c : JVal), (k, c) ∈ fields →
        ∀ u, Schema.WF u → Schema.WF (merge_schema u c)) →
      KSorted (mergeProps P fields) ∧ ∀ kc ∈ mergeProps P fields, Schema.WF kc.2 := by
  intro fields
  induction fields with
  | nil => intro P h1 h2 _; simp only [mergeProps]; exact ⟨h1, h2⟩
  | cons hd rest ih =>
    intro P h1 h2 hrec
    obtain ⟨k0, c0⟩ := hd
    rw [mergeProps]
    refine ih (updProp P k0 c0) (updProp_ksorted k0 c0 h1) ?_
      (fun k c hk => hrec k c (List.mem_cons_of_mem _ hk))
    intro kc hkc
    rcases updProp_mem_cases hkc with h | h | ⟨cold, hcold, hkc2⟩
    · exact h2 kc h
    · rw [h]
      exact hrec k0 c0 (List.mem_cons_self _ _) Schema.empty Schema.WF.empty_wf
    · rw [hkc2]
      exact hrec k0 c0 (List.mem_cons_self _ _) cold (h2 (k0, cold) hcold)

theorem mergeItems_wf :
    ∀ (elems : List JVal) (s : Schema), Schema.WF s →
      (∀ x ∈ elems, ∀ u, Schema.WF u → Schema.WF (merge_schema u x)) →
      Schema.WF (mergeItems s elems) := by
  intro elems
  induction elems with
  | nil => intro s hs _; rw [mergeItems]; exact hs
  | cons x rest ih =>
    intro s hs hrec
    rw [mergeItems]
    exact ih (merge_schema s x) (hrec x (List.mem_cons_self _ _) s hs)
      fun y hy => hrec y (List.mem_cons_of_mem _ hy)

/-- Merging any value into a well-formed schema yields a well-formed
schema. -/
theorem merge_wf_bounded : ∀ (n : Nat) (v : JVal) (s : Schema), sizeOf v ≤ n →
    Schema.WF s → Schema.WF (merge_schema s v) := by
  intro n
  induction n with
  | zero =>
    intro v s h
    have := JVal.one_le_sizeOf_val v
    omega
  | succ n ih =>
    intro v s hv hs
    refine Schema.WF.of_wf_parts ?_ ?_ ?_
    · intro ps hps
      rw [merge_props_split] at hps
      cases v with
      | obj fields =>
        simp only at hps
        injection hps with hps
        subst hps
        refine (mergeProps_wf fields s.propsD hs.propsD_sorted hs.propsD_wf ?_).1
        intro k c hk u hu
        have hsz := List.sizeOf_lt_of_mem hk
        simp only [Prod.mk.sizeOf_spec] at hsz
        simp only [JVal.obj.sizeOf_spec] at hv
        exact ih c u (by omega) hu
      | null => exact hs.props_sorted ps hps
      | bool b => exact hs.props_sorted ps hps
      | num m => exact hs.props_sorted ps hps
      | str st => exact hs.props_sorted ps hps
      | arr el => exact hs.props_sorted ps hps
      | other => exact hs.props_sorted ps hps
    · intro ps hps kc hkc
      rw [merge_props_split] at hps
      cases v with
      | obj fields =>
        simp only at hps
        injection hps with hps
        subst hps
        refine (mergeProps_wf fields s.propsD hs.propsD_sorted hs.propsD_wf ?_).2 kc hkc
        intro k c hk u hu
        have hsz := List.sizeOf_lt_of_mem hk
        simp only [Prod.mk.sizeOf_spec] at hsz
        simp only [JVal.obj.sizeOf_spec] at hv
        exact ih c u (by omega) hu
      | null => exact hs.props_wf ps hps kc hkc
      | bool b => exact hs.props_wf ps hps kc hkc
      | num m => exact hs.props_wf ps hps kc hkc
      | str st => exact hs.props_wf ps hps kc hkc
      | arr el => exact hs.props_wf ps hps kc hkc
      | other => exact hs.props_wf ps hps kc hkc
    · intro it hit
      rw [merge_items_split] at hit
      cases v with
      | arr elems =>
        simp only at hit
        injection hit with hit
        subst hit
        refine mergeItems_wf elems s.itemsD hs.itemsD_wf ?_
        intro x hx u hu
        have hsz := List.sizeOf_lt_of_mem hx
        simp only [JVal.arr.sizeOf_spec] at hv
        exact ih x u (by omega) hu
      | null => exact hs.items_part it hit
      | bool b => exact hs.items_part it hit
      | num m => exact hs.items_part it hit
      | str st => exact hs.items_part it hit
      | obj fl => exact hs.items_part it hit
      | other => exact hs.items_part it hit

theorem merge_wf {v : JVal} {s : Schema} (hs : Schema.WF s) :
    Schema.WF (merge_schema s v) :=
  merge_wf_bounded (sizeOf v) v s (Nat.le_refl _) hs

/-- Folding `updProp` over object fields only grows each recorded child. -/
theorem mergeProps_le :
    ∀ (fields : List (String × JVal)) (P : List (String × Schema)),
      KSorted P → (∀ kc ∈ P, Schema.WF kc.2) →
      (∀ (k : String) (c : JVal), (k, c) ∈ fields →
        ∀ u, Schema.WF u → Schema.WF (merge_schema u c)) →
      (∀ (k : String) (c : JVal), (k, c) ∈ fields →
        ∀ u, Schema.WF u → Schema.Le u (merge_schema u c)) →
      ∀ k c, alookup k P = some c →
        ∃ c', alookup k (mergeProps P fields) = some c' ∧ Schema.Le c c' := by
  intro fields
  induction fields with
  | nil =>
    intro P _ _ _ _ k c hc
    rw [mergeProps]
    exact ⟨c, hc, Schema.Le.refl c⟩
  | cons hd rest ih =>
    intro P h1 h2 hwf hle k c hc
    obtain ⟨k0, c0⟩ := hd
    rw [mergeProps]
    have hstep : ∃ c1, alookup k (updProp P k0 c0) = some c1 ∧ Schema.Le c c1 := by
      by_cases hk : k = k0
      · subst hk
        rw [alookup_updProp_self k c0 h1, hc]
        exact ⟨merge_schema c c0, rfl,
          hle k c0 (List.mem_cons_self _ _) c (h2 (k, c) (alookup_mem hc))⟩
      · rw [alookup_updProp_ne k0 k c0 hk]
        exact ⟨c, hc, Schema.Le.refl c⟩
    obtain ⟨c1, hc1, hle1⟩ := hstep
    have hwfP : ∀ kc ∈ updProp P k0 c0, Schema.WF kc.2 := by
      intro kc hkc
      rcases updProp_mem_cases hkc with h | h | ⟨cold, hcold, hkc2⟩
      · exact h2 kc h
      · rw [h]
        exact hwf k0 c0 (List.mem_cons_self _ _) Schema.empty Schema.WF.empty_wf
      · rw [hkc2]
        exact hwf k0 c0 (List.mem_cons_self _ _) cold (h2 (k0, cold) hcold)
    obtain ⟨c2, hc2, hle2⟩ := ih (updProp P k0 c0) (updProp_ksorted k0 c0 h1) hwfP
      (fun k' c' hk' => hwf k' c' (List.mem_cons_of_mem _ hk'))
      (fun k' c' hk' => hle k' c' (List.mem_cons_of_mem _ hk')) k c1 hc1
    exact ⟨c2, hc2, hle1.trans hle2⟩

theorem mergeItems_le :
    ∀ (elems : List JVal) (s : Schema), Schema.WF s →
      (∀ x ∈ elems, ∀ u, Schema.WF u → Schema.WF (merge_schema u x)) →
      (∀ x ∈ elems, ∀ u, Schema.WF u → Schema.Le u (merge_schema u x)) →
      Schema.Le s (mergeItems s elems) := by
  intro elems
  induction elems with
  | nil => intro s _ _ _; rw [mergeItems]; exact Schema.Le.refl s
  | cons x rest ih =>
    intro s hs hwf hle
    rw [mergeItems]
    refine (hle x (List.mem_cons_self _ _) s hs).trans
      (ih (merge_schema s x) (hwf x (List.mem_cons_self _ _) s hs)
        (fun y hy => hwf y (List.mem_cons_of_mem _ hy))
        (fun y hy => hle y (List.mem_cons_of_mem _ hy)))

theorem merge_le_bounded : ∀ (n : Nat) (v : JVal) (s : Schema), sizeOf v ≤ n →
    Schema.WF s → Schema.Le s (merge_schema s v) := by
  intro n
  induction n with
  | zero =>
    intro v s h
    have := JVal.one_le_sizeOf_val v
    omega
  | succ n ih =>
    intro v s hv hs
    have hprops : ∀ k c, alookup k s.propsD = some c →
        ∃ c', alookup k (merge_schema s v).propsD = some c' ∧ Schema.Le c c' := by
      intro k c hc
      rw [merge_propsD_split]
      cases v with
      | obj fields =>
        simp only
        refine mergeProps_le fields s.propsD hs.propsD_sorted hs.propsD_wf ?_ ?_ k c hc
        · intro k' c' hk' u hu
          have hsz := List.sizeOf_lt_of_mem hk'
          simp only [Prod.mk.sizeOf_spec] at hsz
          simp only [JVal.obj.sizeOf_spec] at hv
          exact merge_wf hu
        · intro k' c' hk' u hu
          have hsz := List.sizeOf_lt_of_mem hk'
          simp only [Prod.mk.sizeOf_spec] at hsz
          simp only [JVal.obj.sizeOf_spec] at hv
          exact ih c' u (by omega) hu
      | null => exact ⟨c, hc, Schema.Le.refl c⟩
      | bool b => exact ⟨c, hc, Schema.Le.refl c⟩
      | num m => exact ⟨c, hc, Schema.Le.refl c⟩
      | str st => exact ⟨c, hc, Schema.Le.refl c⟩
      | arr el => exact ⟨c, hc, Schema.Le.refl c⟩
      | other => exact ⟨c, hc, Schema.Le.refl c⟩
    have hitems : ∀ i, s.items = some i →
        ∃ i', (merge_schema s v).items = some i' ∧ Schema.Le i i' := by
      intro i hi
      rw [merge_items_split]
      cases v with
      | arr elems =>
        simp only
        refine ⟨mergeItems s.itemsD elems, rfl, ?_⟩
        have hid : s.itemsD = i := by rw [Schema.itemsD, hi, Option.getD_some]
        rw [← hid]
        refine mergeItems_le elems s.itemsD (hs.itemsD_wf) ?_ ?_
        · intro x hx u hu
          exact merge_wf hu
        · intro x hx u hu
          have hsz := List.sizeOf_lt_of_mem hx
          simp only [JVal.arr.sizeOf_spec] at hv
          exact ih x u (by omega) hu
      | null => exact ⟨i, hi, Schema.Le.refl i⟩
      | bool b => exact ⟨i, hi, Schema.Le.refl i⟩
      | num m => exact ⟨i, hi, Schema.Le.refl i⟩
      | str st => exact ⟨i, hi, Schema.Le.refl i⟩
      | obj fl => exact ⟨i, hi, Schema.Le.refl i⟩
      | other => exact ⟨i, hi, Schema.Le.refl i⟩
    refine Schema.Le.mk s (merge_schema s v) ?_ ?_ ?_ ?_ ?_ ?_ ?_ ?_ ?_
    · intro x hx
      rw [merge_types]
      exact sInsert_mem _ x _ hx
    · intro x hx; rw [merge_required]; exact hx
    · intro x hx; rw [merge_enum]; exact hx
    · rw [merge_minItems]
    · intro h
      rw [merge_props_split]
      cases v <;> simp_all
    · intro k c hc
      obtain ⟨c', hc', _⟩ := hprops k c hc
      simp [hc']
    · intro k c c' hc hc'
      obtain ⟨c1, hc1, hle1⟩ := hprops k c hc
      rw [hc'] at hc1
      injection hc1 with hc1
      subst hc1
      exact hle1
    · intro i hi
      obtain ⟨i', hi', _⟩ := hitems i hi
      simp [hi']
    · intro i i' hi hi'
      obtain ⟨i1, hi1, hle1⟩ := hitems i hi
      rw [hi'] at hi1
      injection hi1 with hi1
      subst hi1
      exact hle1

/-- C9: `merge_schema` is monotone.  Merging an additional value into a
well-formed schema only adds: every recorded type is kept (`Le.types_sub`),
every recorded property key still maps to a (grown) child
(`Le.props_le`), a recorded items sub-schema survives (`Le.items_le`), and
the `required`/`enum`/`minItems` entries are untouched. -/
theorem c9_merge_schema_monotone (s : Schema) (v : JVal) (h : Schema.WF s) :
    Schema.Le s (merge_schema s v) :=
  merge_le_bounded (sizeOf v) v s (Nat.le_refl _) h

/-- Witness for C9 at a concrete input. -/
theorem c9_merge_schema_monotone_witness :
    Schema.WF Schema.empty
    ∧ Schema.Le Schema.empty
        (merge_schema Schema.empty (JVal.obj [("a", JVal.num 1)])) :=
  ⟨Schema.WF.empty_wf, c9_merge_schema_monotone _ _ Schema.WF.empty_wf⟩

/-! ### Emission: `schema_to_json`, key-sorted serialization, and the
test-side `validate` -/

/-- One insertion step of insertion sort (no deduplication), used to model
Python `sorted(...)` on strings. -/
def insSorted (x : String) : List String → List String
  | [] => [x]
  | h :: t => if x ≤ h then x :: h :: t else h :: insSorted x t

/-- Python `sorted(strings)`. -/
def pySorted (l : List String) : List String := l.foldr insSorted []

/-- A JSON value on the output side (emitted schema document).  Object
fields are kept in emission order; `sortKeysJ` below models the recursive
key sorting of `json.dumps(..., sort_keys=True)`. -/
inductive JOut where
  | null
  | bool (b : Bool)
  | num (n : Int)
  | str (s : String)
  | obj (fields : List (String × JOut))
  | arr (elems : List JOut)
deriving Repr

mutual
/-- Function `schema_to_json` from `src/tools/infer_schema.py`: emit `type`
(collapsing a single-kind set to a bare string), then `properties`,
`items`, `required`, `enum`, `minItems`, in the source's insertion order.
The set-valued entries pass through `sorted(...)` (`pySorted`); for the
set representations of this embedding "key absent" coincides with "set
empty", matching the truthiness/`in` guards of the source. -/
def schema_to_json : Schema → JOut
  | .mk t p i r e m =>
    JOut.obj
      ((match pySorted t with
        | [] => []
        | [ty] => [("type", JOut.str ty)]
        | ts => [("type", JOut.arr (ts.map JOut.str))]) ++
       (match p with
        | some ps => [("properties", JOut.obj (propsToJson ps))]
        | none => []) ++
       (match i with
        | some it => [("items", schema_to_json it)]
        | none => []) ++
       (match r with
        | [] => []
        | rs => [("required", JOut.arr ((pySorted rs).map JOut.str))]) ++
       (match e with
        | [] => []
        | es => [("enum", JOut.arr ((pySorted es).map JOut.str))]) ++
       (match m with
        | some n => [("minItems", JOut.num n)]
        | none => []))
termination_by s => (sizeOf s, 0)

/-- The `properties` comprehension of `schema_to_json`. -/
def propsToJson : List (String × Schema) → List (String × JOut)
  | [] => []
  | (k, c) :: rest => (k, schema_to_json c) :: propsToJson rest
termination_by ps => (sizeOf ps, 1)
end

/-- Insertion step for sorting object fields by key
(`json.dumps(..., sort_keys=True)`). -/
def insPair (p : String × JOut) : List (String × JOut) → List (String × JOut)
  | [] => [p]
  | q :: t => if p.1 ≤ q.1 then p :: q :: t else q :: insPair p t

def sortPairs (l : List (String × JOut)) : List (String × JOut) :=
  l.foldr insPair []

mutual
/-- Recursive key sorting performed by `json.dumps(..., sort_keys=True)`:
every object's fields are emitted in ascending key order. -/
def sortKeysJ : JOut → JOut
  | .obj fields => .obj (sortPairs (sortFieldsJ fields))
  | .arr elems => .arr (sortElemsJ elems)
  | .null => .null
  | .bool b => .bool b
  | .num n => .num n
  | .str s => .str s
termination_by j => (sizeOf j, 0)

def sortFieldsJ : List (String × JOut) → List (String × JOut)
  | [] => []
  | (k, v) :: rest => (k, sortKeysJ v) :: sortFieldsJ rest
termination_by fs => (sizeOf fs, 1)

def sortElemsJ : List JOut → List JOut
  | [] => []
  | x :: rest => sortKeysJ x :: sortElemsJ rest
termination_by xs => (sizeOf xs, 1)
end

/-- Python `schema.get(key)` on an emitted JSON object (the parsed schema document
is always a dict at the points where `validate` calls `.get`). -/
def jGet (schema : JOut) (k : String) : Option JOut :=
  match schema with
  | .obj fields => alookup k fields
  | _ => none

/-- Python truthiness of a JSON value (`if schema_types:`, `if items_schema:`). -/
def jTruthy : JOut → Bool
  | .null => false
  | .bool b => b
  | .num n => decide (n ≠ 0)
  | .str s => decide (s ≠ "")
  | .obj fields => !fields.isEmpty
  | .arr elems => !elems.isEmpty

/-- Python `key in value` for a JSON object value. -/
def hasKey (fields : List (String × JVal)) (k : String) : Bool :=
  (alookup k fields).isSome

mutual
/-- Python `==` between an element of the schema document and an example
value (used for `value in schema["enum"]`).  Scalar comparisons are exact;
containers are compared structurally.  (Python's numeric cross-type
equalities such as `True == 1`, and order-insensitive dict equality, are
not modelled: every `enum` entry this tool ever emits is a string.) -/
def jeq : JOut → JVal → Bool
  | .null, .null => true
  | .bool b, .bool b' => b == b'
  | .num n, .num n' => n == n'
  | .str s, .str s' => s == s'
  | .obj f, .obj f' => jeqFields f f'
  | .arr xs, .arr ys => jeqElems xs ys
  | _, _ => false
termination_by j _ => (sizeOf j, 0)

def jeqFields : List (String × JOut) → List (String × JVal) → Bool
  | [], [] => true
  | (k, v) :: rest, (k', v') :: rest' => k == k' && jeq v v' && jeqFields rest rest'
  | _, _ => false
termination_by fs _ => (sizeOf fs, 1)

def jeqElems : List JOut → List JVal → Bool
  | [], [] => true
  | x :: rest, y :: rest' => jeq x y && jeqElems rest rest'
  | _, _ => false
termination_by xs _ => (sizeOf xs, 1)
end

mutual
/-- Function `validate` from `src/tests/test_schema.py`, as the predicate "no
assertion fails".  The checks mirror the source: a truthy `type` entry
must list the value's kind; a present `enum` must contain the value; for
object values every `required` key must be present and every key that also
appears under `properties` is validated recursively; for array values a
truthy `items` schema is applied to every element. -/
def validate (schema : JOut) (value : JVal) : Bool :=
  (match jGet schema "type" with
   | none => true
   | some st =>
     if jTruthy st then
       match st with
       | .str t => value_type value == t
       | .arr ts => ts.any fun t => jeq t (JVal.str (value_type value))
       | _ => false
     else true) &&
  (match jGet schema "enum" with
   | none => true
   | some (.arr es) => es.any fun e => jeq e value
   | some _ => false) &&
  (match value with
   | .obj fields =>
     (match jGet schema "required" with
      | some (.arr rs) => rs.all fun r =>
          match r with
          | .str k => hasKey fields k
          | _ => false
      | _ => true) &&
     (match jGet schema "properties" with
      | some (.obj ps) => validateFields ps fields
      | _ => validateFields [] fields)
   | _ => true) &&
  (match value with
   | .arr elems =>
     (match jGet schema "items" with
      | some its => if jTruthy its then validateElems its elems else true
      | none => true)
   | _ => true)
termination_by (sizeOf value, 0)

/-- The `for key, child in value.items()` loop of `validate`. -/
def validateFields (ps : List (String × JOut)) (fields : List (String × JVal)) : Bool :=
  match fields with
  | [] => true
  | (k, c) :: rest =>
    (match alookup k ps with
     | some cs => validate cs c
     | none => true) && validateFields ps rest
termination_by (sizeOf fields, 1)

/-- The `for index, item in enumerate(value)` loop of `validate`. -/
def validateElems (its : JOut) (elems : List JVal) : Bool :=
  match elems with
  | [] => true
  | x :: rest => validate its x && validateElems its rest
termination_by (sizeOf elems, 1)
end

theorem mem_insSorted (x y : String) : ∀ l, (y ∈ insSorted x l ↔ y = x ∨ y ∈ l) := by
  intro l
  induction l with
  | nil => simp [insSorted]
  | cons h t ih =>
    rw [insSorted]
    by_cases hxh : x ≤ h
    · rw [if_pos hxh]
      simp [List.mem_cons]
    · rw [if_neg hxh]
      simp only [List.mem_cons, ih]
      tauto

theorem mem_pySorted (y : String) : ∀ l, (y ∈ pySorted l ↔ y ∈ l) := by
  intro l
  induction l with
  | nil => simp [pySorted]
  | cons h t ih =>
    rw [pySorted, List.foldr_cons]
    rw [pySorted] at ih
    rw [mem_insSorted]
    simp [ih]

theorem pySorted_eq_nil_iff (l : List String) : pySorted l = [] ↔ l = [] := by
  cases l with
  | nil => simp [pySorted]
  | cons h t =>
    simp only [pySorted, List.foldr_cons]
    constructor
    · intro he
      have : h ∈ insSorted h (List.foldr insSorted [] t) := by
        rw [mem_insSorted]; exact Or.inl rfl
      rw [he] at this
      cases this
    · intro he; cases he

theorem value_type_ne_empty (v : JVal) : value_type v ≠ "" := by
  cases v <;> simp [value_type]

theorem alookup_propsToJson (k : String) :
    ∀ ps : List (String × Schema),
      alookup k (propsToJson ps) = (alookup k ps).map schema_to_json := by
  intro ps
  induction ps with
  | nil => simp [propsToJson, alookup]
  | cons hd tl ih =>
    obtain ⟨k', c⟩ := hd
    rw [propsToJson]
    by_cases hk : k' = k
    · rw [alookup, if_pos hk, alookup, if_pos hk]; rfl
    · rw [alookup, if_neg hk, alookup, if_neg hk, ih]

/-- A merge-built schema: no `required`, `enum` or `minItems` entry at any
level (those are added only by `apply_manual_rules`). -/
inductive Schema.Pure : Schema → Prop where
  | mk : ∀ (t : List String) (p : Option (List (String × Schema))) (i : Option Schema),
      (∀ ps, p = some ps → ∀ kc, kc ∈ ps → Schema.Pure kc.2) →
      (∀ it, i = some it → Schema.Pure it) →
      Schema.Pure (.mk t p i [] [] none)

theorem Schema.Pure.required_eq {s : Schema} (h : Schema.Pure s) : s.required = [] := by
  cases h with | mk t p i hp hi => rfl

theorem Schema.Pure.enum_eq {s : Schema} (h : Schema.Pure s) : s.enum = [] := by
  cases h with | mk t p i hp hi => rfl

theorem Schema.Pure.minItems_none {s : Schema} (h : Schema.Pure s) : s.minItems = none := by
  cases h with | mk t p i hp hi => rfl

theorem Schema.Pure.props_pure {s : Schema} (h : Schema.Pure s) :
    ∀ ps, s.properties = some ps → ∀ kc, kc ∈ ps → Schema.Pure kc.2 := by
  cases h with | mk t p i hp hi => exact hp

theorem Schema.Pure.items_pure {s : Schema} (h : Schema.Pure s) :
    ∀ it, s.items = some it → Schema.Pure it := by
  cases h with | mk t p i hp hi => exact hi

theorem Schema.Pure.empty_pure : Schema.Pure Schema.empty :=
  Schema.Pure.mk _ _ _ (fun _ hps => by cases hps) (fun _ hit => by cases hit)

theorem Schema.Pure.of_pure_parts {s : Schema}
    (hr : s.required = []) (he : s.enum = []) (hm : s.minItems = none)
    (hp : ∀ ps, s.properties = some ps → ∀ kc, kc ∈ ps → Schema.Pure kc.2)
    (hi : ∀ it, s.items = some it → Schema.Pure it) : Schema.Pure s := by
  cases s with
  | mk t p i r e m =>
    simp only [Schema.required] at hr
    simp only [Schema.enum] at he
    simp only [Schema.minItems] at hm
    subst hr; subst he; subst hm
    exact Schema.Pure.mk t p i hp hi

theorem Schema.Pure.propsD_pure {s : Schema} (h : Schema.Pure s) :
    ∀ kc ∈ s.propsD, Schema.Pure kc.2 := by
  rw [Schema.propsD]
  cases hp : s.properties with
  | none => simp
  | some ps => simpa using h.props_pure ps hp

/-- Merging preserves purity (merge never touches `required`/`enum`/`minItems`). -/
theorem merge_pure_bounded : ∀ (n : Nat) (v : JVal) (s : Schema), sizeOf v ≤ n →
    Schema.Pure s → Schema.Pure (merge_schema s v) := by
  intro n
  induction n with
  | zero =>
    intro v s h
    have := JVal.one_le_sizeOf_val v
    omega
  | succ n ih =>
    intro v s hv hs
    refine Schema.Pure.of_pure_parts ?_ ?_ ?_ ?_ ?_
    · rw [merge_required]; exact hs.required_eq
    · rw [merge_enum]; exact hs.enum_eq
    · rw [merge_minItems]; exact hs.minItems_none
    · intro ps hps kc hkc
      rw [merge_props_split] at hps
      cases v with
      | obj fields =>
        simp only at hps
        injection hps with hps
        subst hps
        -- kc is an entry of the merged property list
        have : ∀ (fs : List (String × JVal)) (P : List (String × Schema)),
            (∀ kc' ∈ P, Schema.Pure kc'.2) →
            (∀ (k : String) (c : JVal), (k, c) ∈ fs →
              ∀ u, Schema.Pure u → Schema.Pure (merge_schema u c)) →
            ∀ kc' ∈ mergeProps P fs, Schema.Pure kc'.2 := by
          intro fs
          induction fs with
          | nil => intro P h1 _; simpa [mergeProps] using h1
          | cons hd rest ihf =>
            intro P h1 hrec
            obtain ⟨k0, c0⟩ := hd
            rw [mergeProps]
            refine ihf (updProp P k0 c0) ?_
              (fun k c hk => hrec k c (List.mem_cons_of_mem _ hk))
            intro kc' hkc'
            rcases updProp_mem_cases hkc' with h | h | ⟨cold, hcold, hkc2⟩
            · exact h1 kc' h
            · rw [h]
              exact hrec k0 c0 (List.mem_cons_self _ _) Schema.empty Schema.Pure.empty_pure
            · rw [hkc2]
              exact hrec k0 c0 (List.mem_cons_self _ _) cold (h1 (k0, cold) hcold)
        refine this fields s.propsD hs.propsD_pure ?_ kc hkc
        intro k c hk u hu
        have hsz := List.sizeOf_lt_of_mem hk
        simp only [Prod.mk.sizeOf_spec] at hsz
        simp only [JVal.obj.sizeOf_spec] at hv
        exact ih c u (by omega) hu
      | null => exact hs.props_pure ps hps kc hkc
      | bool b => exact hs.props_pure ps hps kc hkc
      | num m => exact hs.props_pure ps hps kc hkc
      | str st => exact hs.props_pure ps hps kc hkc
      | arr el => exact hs.props_pure ps hps kc hkc
      | other => exact hs.props_pure ps hps kc hkc
    · intro it hit
      rw [merge_items_split] at hit
      cases v with
      | arr elems =>
        simp only at hit
        injection hit with hit
        subst hit
        have : ∀ (es : List JVal) (u : Schema), Schema.Pure u →
            (∀ x ∈ es, ∀ w, Schema.Pure w → Schema.Pure (merge_schema w x)) →
            Schema.Pure (mergeItems u es) := by
          intro es
          induction es with
          | nil => intro u hu _; rw [mergeItems]; exact hu
          | cons x rest ihe =>
            intro u hu hrec
            rw [mergeItems]
            exact ihe (merge_schema u x) (hrec x (List.mem_cons_self _ _) u hu)
              fun y hy => hrec y (List.mem_cons_of_mem _ hy)
        have hP : Schema.Pure s.itemsD := by
          rw [Schema.itemsD]
          cases hi : s.items with
          | none => exact Schema.Pure.empty_pure
          | some i0 => simpa using hs.items_pure i0 hi
        refine this elems s.itemsD hP ?_
        intro x hx w hw
        have hsz := List.sizeOf_lt_of_mem hx
        simp only [JVal.arr.sizeOf_spec] at hv
        exact ih x w (by omega) hw
      | null => exact hs.items_pure it hit
      | bool b => exact hs.items_pure it hit
      | num m => exact hs.items_pure it hit
      | str st => exact hs.items_pure it hit
      | obj fl => exact hs.items_pure it hit
      | other => exact hs.items_pure it hit

theorem merge_pure {v : JVal} {s : Schema} (hs : Schema.Pure s) :
    Schema.Pure (merge_schema s v) :=
  merge_pure_bounded (sizeOf v) v s (Nat.le_refl _) hs

/-- The schema has observed every node of the value: the value's kind is
recorded, every object key has a recorded child schema admitting the
child value, and array elements are covered by the recorded items
schema. -/
inductive Covers : Schema → JVal → Prop where
  | mk : ∀ (s : Schema) (v : JVal),
      value_type v ∈ s.types →
      (∀ fields, v = .obj fields → s.properties.isSome) →
      (∀ fields (k : String) (c : JVal), v = .obj fields → (k, c) ∈ fields →
        (alookup k s.propsD).isSome) →
      (∀ fields (k : String) (c : JVal) (c' : Schema), v = .obj fields → (k, c) ∈ fields →
        alookup k s.propsD = some c' → Covers c' c) →
      (∀ elems, v = .arr elems → s.items.isSome) →
      (∀ elems (x : JVal) (i : Schema), v = .arr elems → x ∈ elems →
        s.items = some i → Covers i x) →
      Covers s v

theorem Covers.type_mem {s : Schema} {v : JVal} (h : Covers s v) :
    value_type v ∈ s.types := by
  cases h with | mk _ _ h1 h2 h3 h4 h5 h6 => exact h1

theorem Covers.props_present {s : Schema} {v : JVal} (h : Covers s v) :
    ∀ fields, v = .obj fields → s.properties.isSome := by
  cases h with | mk _ _ h1 h2 h3 h4 h5 h6 => exact h2

theorem Covers.prop_lookup {s : Schema} {v : JVal} (h : Covers s v) :
    ∀ fields (k : String) (c : JVal), v = .obj fields → (k, c) ∈ fields →
      (alookup k s.propsD).isSome := by
  cases h with | mk _ _ h1 h2 h3 h4 h5 h6 => exact h3

theorem Covers.prop_covers {s : Schema} {v : JVal} (h : Covers s v) :
    ∀ fields (k : String) (c : JVal) (c' : Schema), v = .obj fields → (k, c) ∈ fields →
      alookup k s.propsD = some c' → Covers c' c := by
  cases h with | mk _ _ h1 h2 h3 h4 h5 h6 => exact h4

theorem Covers.items_some {s : Schema} {v : JVal} (h : Covers s v) :
    ∀ elems, v = .arr elems → s.items.isSome := by
  cases h with | mk _ _ h1 h2 h3 h4 h5 h6 => exact h5

theorem Covers.items_covers {s : Schema} {v : JVal} (h : Covers s v) :
    ∀ elems (x : JVal) (i : Schema), v = .arr elems → x ∈ elems →
      s.items = some i → Covers i x := by
  cases h with | mk _ _ h1 h2 h3 h4 h5 h6 => exact h6

theorem JVal.sizeOf_field_lt {fields : List (String × JVal)} {k : String} {c : JVal}
    (h : (k, c) ∈ fields) : sizeOf c < sizeOf (JVal.obj fields) := by
  have hsz := List.sizeOf_lt_of_mem h
  simp only [Prod.mk.sizeOf_spec] at hsz
  simp only [JVal.obj.sizeOf_spec]
  omega

theorem JVal.sizeOf_elem_lt {elems : List JVal} {x : JVal}
    (h : x ∈ elems) : sizeOf x < sizeOf (JVal.arr elems) := by
  have hsz := List.sizeOf_lt_of_mem h
  simp only [JVal.arr.sizeOf_spec]
  omega

/-- Admission survives growing the schema. -/
theorem covers_mono_bounded : ∀ (n : Nat) (v : JVal) (s t : Schema), sizeOf v ≤ n →
    Schema.Le s t → Covers s v → Covers t v := by
  intro n
  induction n with
  | zero =>
    intro v s t h
    have := JVal.one_le_sizeOf_val v
    omega
  | succ n ih =>
    intro v s t hv hle ha
    refine Covers.mk t v (hle.types_sub _ ha.type_mem) ?_ ?_ ?_ ?_ ?_
    · intro fields hf
      exact hle.props_isSome (ha.props_present fields hf)
    · intro fields k c hf hk
      obtain ⟨c0, hc0⟩ := Option.isSome_iff_exists.mp (ha.prop_lookup fields k c hf hk)
      obtain ⟨c1, hc1, _⟩ := hle.props_le k c0 hc0
      simp [hc1]
    · intro fields k c c' hf hk hc'
      obtain ⟨c0, hc0⟩ := Option.isSome_iff_exists.mp (ha.prop_lookup fields k c hf hk)
      obtain ⟨c1, hc1, hle1⟩ := hle.props_le k c0 hc0
      rw [hc'] at hc1
      injection hc1 with hc1
      subst hc1
      have hadm := ha.prop_covers fields k c c0 hf hk hc0
      have hsz : sizeOf c < sizeOf v := hf ▸ JVal.sizeOf_field_lt hk
      exact ih c c0 c' (by omega) hle1 hadm
    · intro elems he
      obtain ⟨i0, hi0⟩ := Option.isSome_iff_exists.mp (ha.items_some elems he)
      obtain ⟨i1, hi1, _⟩ := hle.items_le i0 hi0
      simp [hi1]
    · intro elems x i he hx hi
      obtain ⟨i0, hi0⟩ := Option.isSome_iff_exists.mp (ha.items_some elems he)
      obtain ⟨i1, hi1, hle1⟩ := hle.items_le i0 hi0
      rw [hi] at hi1
      injection hi1 with hi1
      subst hi1
      have hadm := ha.items_covers elems x i0 he hx hi0
      have hsz : sizeOf x < sizeOf v := he ▸ JVal.sizeOf_elem_lt hx
      exact ih x i0 i (by omega) hle1 hadm

theorem covers_mono {v : JVal} {s t : Schema}
    (hle : Schema.Le s t) (ha : Covers s v) : Covers t v :=
  covers_mono_bounded (sizeOf v) v s t (Nat.le_refl _) hle ha

/-- Folding merges only grows the schema. -/
theorem fold_merge_le (L : List JVal) :
    ∀ (s : Schema), Schema.WF s → Schema.Le s (List.foldl merge_schema s L) := by
  induction L with
  | nil => intro s _; exact Schema.Le.refl s
  | cons x rest ih =>
    intro s hs
    rw [List.foldl_cons]
    exact (c9_merge_schema_monotone s x hs).trans (ih (merge_schema s x) (merge_wf hs))

theorem fold_merge_wf (L : List JVal) :
    ∀ (s : Schema), Schema.WF s → Schema.WF (List.foldl merge_schema s L) := by
  induction L with
  | nil => intro s hs; exact hs
  | cons x rest ih =>
    intro s hs
    rw [List.foldl_cons]
    exact ih (merge_schema s x) (merge_wf hs)

theorem fold_merge_pure (L : List JVal) :
    ∀ (s : Schema), Schema.Pure s → Schema.Pure (List.foldl merge_schema s L) := by
  induction L with
  | nil => intro s hs; exact hs
  | cons x rest ih =>
    intro s hs
    rw [List.foldl_cons]
    exact ih (merge_schema s x) (merge_pure hs)

/-- After folding the object fields into the property list, each field's
key maps to a child schema that covers the field's value. -/
theorem mergeProps_covers :
    ∀ (fields : List (String × JVal)) (P : List (String × Schema)),
      KSorted P → (∀ kc ∈ P, Schema.WF kc.2) →
      (∀ (k : String) (c : JVal), (k, c) ∈ fields →
        ∀ u, Schema.WF u → Covers (merge_schema u c) c) →
      ∀ (k : String) (c : JVal), (k, c) ∈ fields →
        ∃ c', alookup k (mergeProps P fields) = some c' ∧ Covers c' c := by
  intro fields
  induction fields with
  | nil => intro P _ _ _ k c hk; cases hk
  | cons hd rest ih =>
    intro P h1 h2 hself k c hk
    obtain ⟨k0, c0⟩ := hd
    rw [mergeProps]
    have h1' := updProp_ksorted k0 c0 (P := P) h1
    have h2' : ∀ kc ∈ updProp P k0 c0, Schema.WF kc.2 := by
      intro kc hkc
      rcases updProp_mem_cases hkc with h | h | ⟨cold, hcold, hkc2⟩
      · exact h2 kc h
      · rw [h]; exact merge_wf Schema.WF.empty_wf
      · rw [hkc2]; exact merge_wf (h2 (k0, cold) hcold)
    rcases List.mem_cons.mp hk with hk | hk
    · injection hk with hk1 hk2
      subst hk1; subst hk2
      -- the field just processed: its merged child covers it, and later
      -- updates only grow it
      have hnow : alookup k (updProp P k c) =
          some (merge_schema ((alookup k P).getD Schema.empty) c) :=
        alookup_updProp_self k c h1
      have hwf0 : Schema.WF ((alookup k P).getD Schema.empty) := by
        cases hl : alookup k P with
        | none => exact Schema.WF.empty_wf
        | some c0' => simpa using h2 (k, c0') (alookup_mem hl)
      have hadm : Covers (merge_schema ((alookup k P).getD Schema.empty) c) c :=
        hself k c (List.mem_cons_self _ _) _ hwf0
      obtain ⟨c2, hc2, hle2⟩ := mergeProps_le rest (updProp P k c) h1' h2'
        (fun k' c' _ u hu => merge_wf hu)
        (fun k' c' _ u hu => c9_merge_schema_monotone u c' hu)
        k _ hnow
      exact ⟨c2, hc2, covers_mono hle2 hadm⟩
    · exact ih (updProp P k0 c0) h1' h2'
        (fun k' c' hk' => hself k' c' (List.mem_cons_of_mem _ hk')) k c hk

theorem mergeItems_covers :
    ∀ (elems : List JVal) (s : Schema), Schema.WF s →
      (∀ x ∈ elems, ∀ u, Schema.WF u → Covers (merge_schema u x) x) →
      ∀ x ∈ elems, Covers (mergeItems s elems) x := by
  intro elems
  induction elems with
  | nil => intro s _ _ x hx; cases hx
  | cons y rest ih =>
    intro s hs hself x hx
    rw [mergeItems]
    rcases List.mem_cons.mp hx with hx | hx
    · subst hx
      have hadm : Covers (merge_schema s x) x := hself x (List.mem_cons_self _ _) s hs
      have hle : Schema.Le (merge_schema s x) (mergeItems (merge_schema s x) rest) := by
        rw [mergeItems_eq_foldl]
        exact fold_merge_le rest (merge_schema s x) (merge_wf hs)
      exact covers_mono hle hadm
    · exact ih (merge_schema s y) (merge_wf hs)
        (fun y' hy' => hself y' (List.mem_cons_of_mem _ hy')) x hx

/-- M1: after merging a value into a well-formed schema, the schema covers
that value. -/
theorem covers_self_bounded : ∀ (n : Nat) (v : JVal) (s : Schema), sizeOf v ≤ n →
    Schema.WF s → Covers (merge_schema s v) v := by
  intro n
  induction n with
  | zero =>
    intro v s h
    have := JVal.one_le_sizeOf_val v
    omega
  | succ n ih =>
    intro v s hv hs
    refine Covers.mk _ v ?_ ?_ ?_ ?_ ?_ ?_
    · rw [merge_types]
      exact sInsert_self_mem _ _
    · intro fields hf
      subst hf
      rw [merge_properties_obj]
      rfl
    · intro fields k c hf hk
      subst hf
      have hlk : (merge_schema s (JVal.obj fields)).propsD = mergeProps s.propsD fields := by
        rw [merge_propsD_split]
      rw [hlk]
      obtain ⟨c', hc', _⟩ := mergeProps_covers fields s.propsD hs.propsD_sorted hs.propsD_wf
        (fun k' c' hk' u hu => by
          have hsz := JVal.sizeOf_field_lt hk'
          exact ih c' u (by omega) hu) k c hk
      simp [hc']
    · intro fields k c c' hf hk hc'
      subst hf
      rw [merge_propsD_split] at hc'
      simp only at hc'
      obtain ⟨c2, hc2, hadm⟩ := mergeProps_covers fields s.propsD hs.propsD_sorted hs.propsD_wf
        (fun k' c'' hk' u hu => by
          have hsz := JVal.sizeOf_field_lt hk'
          exact ih c'' u (by omega) hu) k c hk
      rw [hc'] at hc2
      injection hc2 with hc2
      subst hc2
      exact hadm
    · intro elems he
      subst he
      rw [merge_items_arr]
      rfl
    · intro elems x i he hx hi
      subst he
      rw [merge_items_arr] at hi
      injection hi with hi
      subst hi
      exact mergeItems_covers elems s.itemsD hs.itemsD_wf
        (fun y hy u hu => by
          have hsz := JVal.sizeOf_elem_lt hy
          exact ih y u (by omega) hu) x hx

theorem covers_self {v : JVal} {s : Schema} (hs : Schema.WF s) :
    Covers (merge_schema s v) v :=
  covers_self_bounded (sizeOf v) v s (Nat.le_refl _) hs

/-- Every value of the merged list is covered by the final fold result. -/
theorem fold_merge_covers (L : List JVal) :
    ∀ (s : Schema), Schema.WF s → ∀ v ∈ L, Covers (List.foldl merge_schema s L) v := by
  induction L with
  | nil => intro s _ v hv; cases hv
  | cons x rest ih =>
    intro s hs v hv
    rw [List.foldl_cons]
    rcases List.mem_cons.mp hv with hv | hv
    · subst hv
      exact covers_mono (fold_merge_le rest (merge_schema s v) (merge_wf hs))
        (covers_self hs)
    · exact ih (merge_schema s x) (merge_wf hs) v hv

theorem jGet_type_pure (t : List String) (p : Option (List (String × Schema)))
    (i : Option Schema) :
    jGet (schema_to_json (.mk t p i [] [] none)) "type" =
      (match pySorted t with
       | [] => none
       | [ty] => some (JOut.str ty)
       | ts => some (JOut.arr (ts.map JOut.str))) := by
  rcases hpt : pySorted t with _ | ⟨x, _ | ⟨y, tl⟩⟩ <;> cases p <;> cases i <;>
    simp [schema_to_json, jGet, alookup, hpt]

theorem jGet_enum_pure (t : List String) (p : Option (List (String × Schema)))
    (i : Option Schema) :
    jGet (schema_to_json (.mk t p i [] [] none)) "enum" = none := by
  rcases hpt : pySorted t with _ | ⟨x, _ | ⟨y, tl⟩⟩ <;> cases p <;> cases i <;>
    simp [schema_to_json, jGet, alookup, hpt]

theorem jGet_required_pure (t : List String) (p : Option (List (String × Schema)))
    (i : Option Schema) :
    jGet (schema_to_json (.mk t p i [] [] none)) "required" = none := by
  rcases hpt : pySorted t with _ | ⟨x, _ | ⟨y, tl⟩⟩ <;> cases p <;> cases i <;>
    simp [schema_to_json, jGet, alookup, hpt]

theorem jGet_properties_pure (t : List String) (p : Option (List (String × Schema)))
    (i : Option Schema) :
    jGet (schema_to_json (.mk t p i [] [] none)) "properties" =
      p.map (fun ps => JOut.obj (propsToJson ps)) := by
  rcases hpt : pySorted t with _ | ⟨x, _ | ⟨y, tl⟩⟩ <;> cases p <;> cases i <;>
    simp [schema_to_json, jGet, alookup, hpt]

theorem jGet_items_pure (t : List String) (p : Option (List (String × Schema)))
    (i : Option Schema) :
    jGet (schema_to_json (.mk t p i [] [] none)) "items" =
      i.map schema_to_json := by
  rcases hpt : pySorted t with _ | ⟨x, _ | ⟨y, tl⟩⟩ <;> cases p <;> cases i <;>
    simp [schema_to_json, jGet, alookup, hpt]

theorem validateFields_true (ps' : List (String × JOut)) :
    ∀ (fields : List (String × JVal)),
      (∀ (k : String) (c : JVal), (k, c) ∈ fields →
        ∀ cs, alookup k ps' = some cs → validate cs c = true) →
      validateFields ps' fields = true := by
  intro fields
  induction fields with
  | nil => intro _; rw [validateFields]
  | cons hd rest ih =>
    intro h
    obtain ⟨k, c⟩ := hd
    rw [validateFields]
    rw [Bool.and_eq_true]
    constructor
    · cases hl : alookup k ps' with
      | none => rfl
      | some cs => exact h k c (List.mem_cons_self _ _) cs hl
    · exact ih fun k' c' hk' => h k' c' (List.mem_cons_of_mem _ hk')

theorem validateElems_true (its : JOut) :
    ∀ (elems : List JVal), (∀ x ∈ elems, validate its x = true) →
      validateElems its elems = true := by
  intro elems
  induction elems with
  | nil => intro _; rw [validateElems]
  | cons x rest ih =>
    intro h
    rw [validateElems, Bool.and_eq_true]
    exact ⟨h x (List.mem_cons_self _ _), ih fun y hy => h y (List.mem_cons_of_mem _ hy)⟩

/-- The `type` component of `validate` accepts any value whose kind is in
the recorded type set. -/
theorem type_component_true (v : JVal) (t : List String)
    (p : Option (List (String × Schema))) (i : Option Schema)
    (hmem : value_type v ∈ t) :
    (match jGet (schema_to_json (Schema.mk t p i [] [] none)) "type" with
     | none => true
     | some st =>
       if jTruthy st then
         match st with
         | JOut.str ty => value_type v == ty
         | JOut.arr ts => ts.any fun ty => jeq ty (JVal.str (value_type v))
         | _ => false
       else true) = true := by
  rw [jGet_type_pure]
  have hmem' : value_type v ∈ pySorted t := (mem_pySorted _ t).mpr hmem
  rcases hpt : pySorted t with _ | ⟨x, _ | ⟨y, tl⟩⟩
  · exact absurd hmem' (by simp [hpt])
  · rw [hpt] at hmem'
    have h1 : value_type v = x := by simpa using hmem'
    have hne : x ≠ "" := h1 ▸ value_type_ne_empty v
    simp [jTruthy, hne, h1]
  · rw [hpt] at hmem'
    show (if jTruthy (JOut.arr (List.map JOut.str (x :: y :: tl))) = true
        then (List.map JOut.str (x :: y :: tl)).any fun ty => jeq ty (JVal.str (value_type v))
        else true) = true
    rw [if_pos (by simp [jTruthy])]
    simp only [List.any_eq_true]
    refine ⟨JOut.str (value_type v), List.mem_map.mpr ⟨value_type v, hmem', rfl⟩, ?_⟩
    simp [jeq]

theorem enum_component_true (v : JVal) (t : List String)
    (p : Option (List (String × Schema))) (i : Option Schema) :
    (match jGet (schema_to_json (Schema.mk t p i [] [] none)) "enum" with
     | none => true
     | some (JOut.arr es) => es.any fun e => jeq e v
     | some _ => false) = true := by
  rw [jGet_enum_pure]

/-- M3: a pure (merge-built) schema's JSON emission validates every value
the schema covers. -/
theorem validate_sound_bounded : ∀ (n : Nat) (v : JVal) (s : Schema), sizeOf v ≤ n →
    Schema.Pure s → Covers s v → validate (schema_to_json s) v = true := by
  intro n
  induction n with
  | zero =>
    intro v s h
    have := JVal.one_le_sizeOf_val v
    omega
  | succ n ih =>
    intro v s hv hp ha
    cases s with
    | mk t p i r e m =>
      have hr : r = [] := hp.required_eq
      have he : e = [] := hp.enum_eq
      have hm : m = none := hp.minItems_none
      subst hr; subst he; subst hm
      cases v with
      | obj fields =>
        rw [validate]
        simp only [Bool.and_eq_true]
        refine ⟨⟨⟨type_component_true _ t p i ha.type_mem,
          enum_component_true _ t p i⟩, ?_, ?_⟩, by trivial⟩
        · rw [jGet_required_pure]
        · have hps := ha.props_present fields rfl
          simp only [Schema.properties] at hps
          obtain ⟨ps, hps⟩ := Option.isSome_iff_exists.mp hps
          subst hps
          rw [jGet_properties_pure]
          simp only [Option.map]
          refine validateFields_true _ fields ?_
          intro k c hk cs hcs
          rw [alookup_propsToJson] at hcs
          cases hl : alookup k ps with
          | none => rw [hl] at hcs; cases hcs
          | some c' =>
            rw [hl] at hcs
            injection hcs with hcs
            subst hcs
            have hadm : Covers c' c := by
              refine ha.prop_covers fields k c c' rfl hk ?_
              simpa [Schema.propsD, Schema.properties] using hl
            have hpure : Schema.Pure c' :=
              hp.props_pure ps rfl (k, c') (alookup_mem hl)
            have hsz := JVal.sizeOf_field_lt hk
            exact ih c c' (by omega) hpure hadm
      | arr elems =>
        rw [validate]
        simp only [Bool.and_eq_true]
        refine ⟨⟨⟨type_component_true _ t p i ha.type_mem,
          enum_component_true _ t p i⟩, by trivial⟩, ?_⟩
        have his := ha.items_some elems rfl
        simp only [Schema.items] at his
        obtain ⟨it, hit⟩ := Option.isSome_iff_exists.mp his
        subst hit
        rw [jGet_items_pure]
        simp only [Option.map]
        cases htr : jTruthy (schema_to_json it)
        · simp [htr]
        · simp only [htr, if_true]
          refine validateElems_true _ elems ?_
          intro x hx
          have hadm : Covers it x := ha.items_covers elems x it rfl hx rfl
          have hpure : Schema.Pure it := hp.items_pure it rfl
          have hsz := JVal.sizeOf_elem_lt hx
          exact ih x it (by omega) hpure hadm
      | null =>
        rw [validate]
        rotate_left
        · intro _ h; cases h
        · intro _ h; cases h
        simp only [Bool.and_eq_true]
        exact ⟨⟨⟨type_component_true _ t p i ha.type_mem,
          enum_component_true _ t p i⟩, by trivial⟩, by trivial⟩
      | bool b =>
        rw [validate]
        rotate_left
        · intro _ h; cases h
        · intro _ h; cases h
        simp only [Bool.and_eq_true]
        exact ⟨⟨⟨type_component_true _ t p i ha.type_mem,
          enum_component_true _ t p i⟩, by trivial⟩, by trivial⟩
      | num nn =>
        rw [validate]
        rotate_left
        · intro _ h; cases h
        · intro _ h; cases h
        simp only [Bool.and_eq_true]
        exact ⟨⟨⟨type_component_true _ t p i ha.type_mem,
          enum_component_true _ t p i⟩, by trivial⟩, by trivial⟩
      | str st =>
        rw [validate]
        rotate_left
        · intro _ h; cases h
        · intro _ h; cases h
        simp only [Bool.and_eq_true]
        exact ⟨⟨⟨type_component_true _ t p i ha.type_mem,
          enum_component_true _ t p i⟩, by trivial⟩, by trivial⟩
      | other =>
        rw [validate]
        rotate_left
        · intro _ h; cases h
        · intro _ h; cases h
        simp only [Bool.and_eq_true]
        exact ⟨⟨⟨type_component_true _ t p i ha.type_mem,
          enum_component_true _ t p i⟩, by trivial⟩, by trivial⟩

theorem validate_sound {v : JVal} {s : Schema}
    (hp : Schema.Pure s) (ha : Covers s v) :
    validate (schema_to_json s) v = true :=
  validate_sound_bounded (sizeOf v) v s (Nat.le_refl _) hp ha

/-! ### Manual overrides: `apply_manual_rules` (claims C3, C4) -/

def Schema.setRequired : Schema → List String → Schema
  | .mk t p i _ e m, r => .mk t p i r e m

def Schema.setEnum : Schema → List String → Schema
  | .mk t p i r _ m, e => .mk t p i r e m

/-- Helper `ensure_object` from the source: `schema.setdefault("_types", set()).add("object")`. -/
def ensure_object (s : Schema) : Schema := s.addType "object"

/-- Helper `ensure_enum`: add `"string"` to the kinds and the given values to the enum set. -/
def ensure_enum (s : Schema) (values : List String) : Schema :=
  (s.addType "string").setEnum (sInsertAll s.enum values)

/-- Helper `ensure_array`: add `"array"` to the kinds. -/
def ensure_array (s : Schema) : Schema := s.addType "array"

/-- Helper `ensure_path` composed with the in-place mutation of the returned node:
walk the key path, marking every traversed node as an object and creating
missing children (`properties.setdefault(key, {})`), then apply `f` to the
node at the end of the path.  The Python code mutates the node returned by
`ensure_path`; the pure embedding passes the mutation as `f`. -/
def modifyPath (s : Schema) : List String → (Schema → Schema) → Schema
  | [], f => f s
  | k :: rest, f =>
    (ensure_object s).setProps
      (sput (fun o => modifyPath (o.getD Schema.empty) rest f) k (ensure_object s).propsD)

/-- Read the node at a key path (for stating what the pass did). -/
def getPath (s : Schema) : List String → Option Schema
  | [] => some s
  | k :: rest =>
    match alookup k s.propsD with
    | some c => getPath c rest
    | none => none

/-- Function `apply_manual_rules` from `src/tools/infer_schema.py`: require the five
top-level sections, enumerate `Problem.Type` and `Solver.Sweep.Type`,
force `Solver.Excitations` to an array kind, require
`Boundaries.PostProcessing.NSample` and type it as a number. -/
def apply_manual_rules (s : Schema) : Schema :=
  let s1 := s.setRequired
    (sInsertAll s.required ["Problem", "Model", "Domains", "Boundaries", "Solver"])
  let s2 := modifyPath s1 ["Problem", "Type"]
    (fun n => ensure_enum n ["Driven", "Transient"])
  let s3 := modifyPath s2 ["Solver", "Sweep", "Type"]
    (fun n => ensure_enum n ["Uniform", "Adaptive"])
  let s4 := modifyPath s3 ["Solver", "Excitations"] ensure_array
  let s5 := modifyPath s4 ["Boundaries", "PostProcessing"]
    (fun n => n.setRequired (sInsert "NSample" n.required))
  modifyPath s5 ["Boundaries", "PostProcessing", "NSample"] (fun n => n.addType "number")

/-- C3 (amended): every value in a list of example values validates
against the schema obtained from merging alone (`schema_to_json` of the
`merge_schema` fold, before `apply_manual_rules`). -/
theorem c3_merge_only_validates (L : List JVal) (v : JVal) (hv : v ∈ L) :
    validate (schema_to_json (List.foldl merge_schema Schema.empty L)) v = true :=
  validate_sound (fold_merge_pure L Schema.empty Schema.Pure.empty_pure)
    (fold_merge_covers L Schema.empty Schema.WF.empty_wf v hv)

/-- Witness for the amended C3 at a concrete example list. -/
theorem c3_merge_only_validates_witness :
    (JVal.obj [("a", JVal.num 1)]) ∈ [JVal.obj [("a", JVal.num 1)]]
    ∧ validate (schema_to_json (List.foldl merge_schema Schema.empty
        [JVal.obj [("a", JVal.num 1)]])) (JVal.obj [("a", JVal.num 1)]) = true :=
  ⟨List.mem_cons_self _ _, c3_merge_only_validates _ _ (List.mem_cons_self _ _)⟩

/-- C3 counterexample: the empty object is a non-empty example set's sole
member, yet it fails validation against the full pipeline's schema
(merge, `apply_manual_rules`, `schema_to_json`), because the manual pass
marks `Problem`, `Model`, `Domains`, `Boundaries`, `Solver` as required
and the empty object has none of them. -/
theorem c3_counterexample :
    validate (schema_to_json (apply_manual_rules
      (List.foldl merge_schema Schema.empty [JVal.obj []]))) (JVal.obj []) = false := by
  simp +decide [validate, apply_manual_rules, modifyPath, merge_schema, mergeProps,
    Schema.empty, Schema.addType, Schema.setProps, Schema.propsD, Schema.setRequired,
    Schema.setEnum, Schema.required, Schema.properties, Schema.types, Schema.enum,
    Schema.minItems, Schema.items, ensure_object, ensure_enum, ensure_array,
    sInsert, sInsertAll, sput, value_type, schema_to_json, propsToJson, pySorted,
    insSorted, jGet, alookup, jTruthy, jeq, hasKey, validateFields, value_type]

theorem mem_sInsert (x y : String) : ∀ l, (x ∈ sInsert y l ↔ x = y ∨ x ∈ l) := by
  intro l
  induction l with
  | nil => simp [sInsert]
  | cons h t ih =>
    rw [sInsert]
    rcases lt_trichotomy y h with hy | hy | hy
    · rw [if_pos hy]; simp [List.mem_cons]
    · rw [if_neg (by simp [hy, lt_irrefl]), if_pos hy]
      subst hy
      simp only [List.mem_cons]
      tauto
    · rw [if_neg (lt_asymm hy), if_neg hy.ne']
      simp only [List.mem_cons, ih]
      tauto

theorem mem_sInsertAll (x : String) :
    ∀ (xs l : List String), (x ∈ sInsertAll l xs ↔ x ∈ l ∨ x ∈ xs) := by
  intro xs
  induction xs with
  | nil => intro l; simp [sInsertAll]
  | cons y ys ih =>
    intro l
    rw [sInsertAll, List.foldl_cons]
    have : ys.foldl (fun acc z => sInsert z acc) (sInsert y l) = sInsertAll (sInsert y l) ys := rfl
    rw [this, ih, mem_sInsert]
    simp only [List.mem_cons]
    tauto

theorem Schema.addType_types (s : Schema) (x : String) :
    (s.addType x).types = sInsert x s.types := by
  cases s; rfl

theorem Schema.addType_required (s : Schema) (x : String) :
    (s.addType x).required = s.required := by cases s; rfl

theorem Schema.addType_enum (s : Schema) (x : String) :
    (s.addType x).enum = s.enum := by cases s; rfl

theorem Schema.addType_minItems (s : Schema) (x : String) :
    (s.addType x).minItems = s.minItems := by cases s; rfl

theorem Schema.addType_properties (s : Schema) (x : String) :
    (s.addType x).properties = s.properties := by cases s; rfl

theorem Schema.addType_items (s : Schema) (x : String) :
    (s.addType x).items = s.items := by cases s; rfl

theorem Schema.setRequired_props (s : Schema) (r : List String) :
    (s.setRequired r).properties = s.properties := by cases s; rfl

theorem Schema.setRequired_required (s : Schema) (r : List String) :
    (s.setRequired r).required = r := by cases s; rfl

theorem Schema.setRequired_enum (s : Schema) (r : List String) :
    (s.setRequired r).enum = s.enum := by cases s; rfl

theorem Schema.setRequired_minItems (s : Schema) (r : List String) :
    (s.setRequired r).minItems = s.minItems := by cases s; rfl

theorem Schema.setRequired_items (s : Schema) (r : List String) :
    (s.setRequired r).items = s.items := by cases s; rfl

theorem Schema.setEnum_types (s : Schema) (e : List String) :
    (s.setEnum e).types = s.types := by cases s; rfl

theorem Schema.setEnum_enum (s : Schema) (e : List String) :
    (s.setEnum e).enum = e := by cases s; rfl

theorem Schema.setEnum_required (s : Schema) (e : List String) :
    (s.setEnum e).required = s.required := by cases s; rfl

theorem Schema.WF.addType {s : Schema} (h : Schema.WF s) (x : String) :
    Schema.WF (s.addType x) := by
  refine Schema.WF.of_wf_parts ?_ ?_ ?_
  · rw [Schema.addType_properties]; exact h.props_sorted
  · rw [Schema.addType_properties]; exact h.props_wf
  · rw [Schema.addType_items]; exact h.items_part

theorem Schema.WF.setRequired {s : Schema} (h : Schema.WF s) (r : List String) :
    Schema.WF (s.setRequired r) := by
  refine Schema.WF.of_wf_parts ?_ ?_ ?_
  · rw [Schema.setRequired_props]; exact h.props_sorted
  · rw [Schema.setRequired_props]; exact h.props_wf
  · rw [Schema.setRequired_items]; exact h.items_part

theorem Schema.WF.setEnum {s : Schema} (h : Schema.WF s) (e : List String) :
    Schema.WF (s.setEnum e) := by
  cases s with
  | mk t p i r e0 m =>
    refine Schema.WF.of_wf_parts ?_ ?_ ?_
    · exact h.props_sorted
    · exact h.props_wf
    · exact h.items_part

theorem ensure_enum_wf {s : Schema} (h : Schema.WF s) (vals : List String) :
    Schema.WF (ensure_enum s vals) :=
  (h.addType "string").setEnum _

theorem ensure_array_wf {s : Schema} (h : Schema.WF s) :
    Schema.WF (ensure_array s) := h.addType "array"

/-- The node along an (ensure-)path, with missing links read as fresh
empty nodes. -/
def pathNodeD (s : Schema) : List String → Schema
  | [] => s
  | k :: rest => pathNodeD ((alookup k s.propsD).getD Schema.empty) rest

theorem modifyPath_nil (s : Schema) (f : Schema → Schema) :
    modifyPath s [] f = f s := rfl

theorem modifyPath_cons (s : Schema) (k : String) (p : List String) (f : Schema → Schema) :
    modifyPath s (k :: p) f =
      (ensure_object s).setProps
        (sput (fun o => modifyPath (o.getD Schema.empty) p f) k
          (ensure_object s).propsD) := rfl

theorem modifyPath_cons_types (s : Schema) (k : String) (p : List String)
    (f : Schema → Schema) :
    (modifyPath s (k :: p) f).types = sInsert "object" s.types := by
  rw [modifyPath_cons]
  cases s with
  | mk t pp i r e m => rfl

theorem modifyPath_cons_required (s : Schema) (k : String) (p : List String)
    (f : Schema → Schema) :
    (modifyPath s (k :: p) f).required = s.required := by
  rw [modifyPath_cons]
  cases s with
  | mk t pp i r e m => rfl

theorem modifyPath_cons_enum (s : Schema) (k : String) (p : List String)
    (f : Schema → Schema) :
    (modifyPath s (k :: p) f).enum = s.enum := by
  rw [modifyPath_cons]
  cases s with
  | mk t pp i r e m => rfl

theorem modifyPath_cons_minItems (s : Schema) (k : String) (p : List String)
    (f : Schema → Schema) :
    (modifyPath s (k :: p) f).minItems = s.minItems := by
  rw [modifyPath_cons]
  cases s with
  | mk t pp i r e m => rfl

theorem modifyPath_cons_items (s : Schema) (k : String) (p : List String)
    (f : Schema → Schema) :
    (modifyPath s (k :: p) f).items = s.items := by
  rw [modifyPath_cons]
  cases s with
  | mk t pp i r e m => rfl

theorem modifyPath_cons_propsD (s : Schema) (k : String) (p : List String)
    (f : Schema → Schema) :
    (modifyPath s (k :: p) f).propsD =
      sput (fun o => modifyPath (o.getD Schema.empty) p f) k s.propsD := by
  rw [modifyPath_cons]
  cases s with
  | mk t pp i r e m =>
    simp [Schema.propsD, Schema.setProps, ensure_object, Schema.addType,
      Schema.properties]

theorem modifyPath_wf {f : Schema → Schema} (hf : ∀ u, Schema.WF u → Schema.WF (f u)) :
    ∀ (p : List String) (s : Schema), Schema.WF s → Schema.WF (modifyPath s p f) := by
  intro p
  induction p with
  | nil => intro s hs; rw [modifyPath_nil]; exact hf s hs
  | cons k rest ih =>
    intro s hs
    rw [modifyPath_cons]
    refine Schema.WF.of_wf_parts ?_ ?_ ?_
    all_goals
      cases s with
      | mk t pp i r e m => ?_
    · intro ps hps
      simp only [Schema.setProps, Schema.properties] at hps
      injection hps with hps
      subst hps
      exact sput_ksorted _ _ ((Schema.WF.addType hs "object").propsD_sorted)
    · intro ps hps kc hkc
      simp only [Schema.setProps, Schema.properties] at hps
      injection hps with hps
      subst hps
      rcases sput_mem_cases _ _ _ kc hkc with h | h | ⟨cold, hcold, hkc2⟩
      · exact (Schema.WF.addType hs "object").propsD_wf kc h
      · rw [h]
        exact ih Schema.empty Schema.WF.empty_wf
      · rw [hkc2]
        exact ih cold ((Schema.WF.addType hs "object").propsD_wf (k, cold) hcold)
    · intro it hit
      simp only [Schema.setProps, Schema.items] at hit
      exact (Schema.WF.addType hs "object").items_part it
        (by simpa [ensure_object, Schema.addType, Schema.items] using hit)

theorem getPath_nil (s : Schema) : getPath s [] = some s := rfl

theorem getPath_cons (s : Schema) (k : String) (q : List String) :
    getPath s (k :: q) =
      (match alookup k s.propsD with
       | some c => getPath c q
       | none => none) := rfl

/-- Reading the exact path just ensured yields the modified node. -/
theorem getPath_modifyPath_self {f : Schema → Schema} :
    ∀ (p : List String) (s : Schema), Schema.WF s →
      getPath (modifyPath s p f) p = some (f (pathNodeD s p)) := by
  intro p
  induction p with
  | nil => intro s _; rfl
  | cons k rest ih =>
    intro s hs
    rw [getPath_cons, modifyPath_cons_propsD,
      alookup_sput_self _ _ hs.propsD_sorted]
    simp only
    rw [ih _ ?wf]
    case wf =>
      cases hl : alookup k s.propsD with
      | none => exact Schema.WF.empty_wf
      | some c => simpa using hs.propsD_wf (k, c) (alookup_mem hl)
    rw [pathNodeD]

/-- Ensuring a path under one top-level key leaves every other key's
subtree untouched. -/
theorem getPath_modifyPath_ne {f : Schema → Schema} (k1 k2 : String) (hne : k1 ≠ k2)
    (p q : List String) (s : Schema) :
    getPath (modifyPath s (k1 :: p) f) (k2 :: q) = getPath s (k2 :: q) := by
  rw [getPath_cons, getPath_cons, modifyPath_cons_propsD,
    alookup_sput_ne _ _ _ (fun h => hne h.symm)]

/-- Descending along the shared head of the ensured path. -/
theorem getPath_modifyPath_cons {f : Schema → Schema} (k : String)
    (p q : List String) (s : Schema) (hs : Schema.WF s) :
    getPath (modifyPath s (k :: p) f) (k :: q) =
      getPath (modifyPath ((alookup k s.propsD).getD Schema.empty) p f) q := by
  rw [getPath_cons, modifyPath_cons_propsD, alookup_sput_self _ _ hs.propsD_sorted]

theorem childD_wf {s : Schema} (hs : Schema.WF s) (k : String) :
    Schema.WF ((alookup k s.propsD).getD Schema.empty) := by
  cases hl : alookup k s.propsD with
  | none => exact Schema.WF.empty_wf
  | some c => simpa using hs.propsD_wf (k, c) (alookup_mem hl)

theorem getPath_eq_pathNodeD :
    ∀ (p : List String) (s : Schema) (n : Schema), getPath s p = some n →
      pathNodeD s p = n := by
  intro p
  induction p with
  | nil =>
    intro s n h
    exact Option.some.inj h
  | cons k rest ih =>
    intro s n h
    rw [getPath_cons] at h
    cases hl : alookup k s.propsD with
    | none => simp [hl] at h
    | some c =>
      rw [hl] at h
      simp only at h
      rw [pathNodeD, hl]
      exact ih c n h

/-- Stage views of `apply_manual_rules` (one per statement of the Python
function), used to reason about the pass. -/
def amrS1 (s : Schema) : Schema :=
  s.setRequired (sInsertAll s.required ["Problem", "Model", "Domains", "Boundaries", "Solver"])

def amrS2 (s : Schema) : Schema :=
  modifyPath (amrS1 s) ["Problem", "Type"] (fun n => ensure_enum n ["Driven", "Transient"])

def amrS3 (s : Schema) : Schema :=
  modifyPath (amrS2 s) ["Solver", "Sweep", "Type"] (fun n => ensure_enum n ["Uniform", "Adaptive"])

def amrS4 (s : Schema) : Schema := modifyPath (amrS3 s) ["Solver", "Excitations"] ensure_array

def amrS5 (s : Schema) : Schema :=
  modifyPath (amrS4 s) ["Boundaries", "PostProcessing"]
    (fun n => n.setRequired (sInsert "NSample" n.required))

theorem apply_manual_rules_eq (s : Schema) :
    apply_manual_rules s =
      modifyPath (amrS5 s) ["Boundaries", "PostProcessing", "NSample"]
        (fun n => n.addType "number") := rfl

theorem amrS1_wf {s : Schema} (h : Schema.WF s) : Schema.WF (amrS1 s) :=
  h.setRequired _

theorem amrS2_wf {s : Schema} (h : Schema.WF s) : Schema.WF (amrS2 s) :=
  modifyPath_wf (fun u hu => ensure_enum_wf hu _) _ _ (amrS1_wf h)

theorem amrS3_wf {s : Schema} (h : Schema.WF s) : Schema.WF (amrS3 s) :=
  modifyPath_wf (fun u hu => ensure_enum_wf hu _) _ _ (amrS2_wf h)

theorem amrS4_wf {s : Schema} (h : Schema.WF s) : Schema.WF (amrS4 s) :=
  modifyPath_wf (fun u hu => ensure_array_wf hu) _ _ (amrS3_wf h)

theorem amrS5_wf {s : Schema} (h : Schema.WF s) : Schema.WF (amrS5 s) :=
  modifyPath_wf (fun u hu => hu.setRequired _) _ _ (amrS4_wf h)

theorem ensure_enum_enum (n : Schema) (vals : List String) :
    (ensure_enum n vals).enum = sInsertAll n.enum vals := by
  rw [ensure_enum, Schema.setEnum_enum]

theorem ensure_enum_types (n : Schema) (vals : List String) :
    (ensure_enum n vals).types = sInsert "string" n.types := by
  rw [ensure_enum, Schema.setEnum_types, Schema.addType_types]

theorem ensure_array_types (n : Schema) :
    (ensure_array n).types = sInsert "array" n.types := by
  rw [ensure_array, Schema.addType_types]

theorem Schema.setRequired_propsD (s : Schema) (r : List String) :
    (s.setRequired r).propsD = s.propsD := by
  rw [Schema.propsD, Schema.propsD, Schema.setRequired_props]

theorem getPath_empty_cons (k : String) (q : List String) :
    getPath Schema.empty (k :: q) = none := by
  rw [getPath_cons]
  simp [Schema.empty, Schema.propsD, Schema.properties, alookup]

/-- C4: `apply_manual_rules` applies exactly the fixed override list: it
requires the five top-level sections (and nothing else is added to the
root `required` set), adds the `Driven`/`Transient` enum on
`Problem.Type` and the `Uniform`/`Adaptive` enum on `Solver.Sweep.Type`
(typing both as strings), adds the array kind on `Solver.Excitations`,
and coerces `Boundaries.PostProcessing.NSample` into a required numeric
entry (`NSample` required inside `PostProcessing`, `number` among its
kinds).  The root `enum`/`minItems` entries and every top-level section
other than `Problem`, `Solver`, `Boundaries` are untouched, before the
document is emitted by `schema_to_json`. -/
theorem c4_apply_manual_rules (s : Schema) (hs : Schema.WF s) :
    (∀ x, x ∈ (apply_manual_rules s).required ↔
        (x ∈ s.required ∨ x ∈ ["Problem", "Model", "Domains", "Boundaries", "Solver"]))
    ∧ (∃ pt, getPath (apply_manual_rules s) ["Problem", "Type"] = some pt
        ∧ "Driven" ∈ pt.enum ∧ "Transient" ∈ pt.enum ∧ "string" ∈ pt.types)
    ∧ (∃ st, getPath (apply_manual_rules s) ["Solver", "Sweep", "Type"] = some st
        ∧ "Uniform" ∈ st.enum ∧ "Adaptive" ∈ st.enum ∧ "string" ∈ st.types)
    ∧ (∃ ex, getPath (apply_manual_rules s) ["Solver", "Excitations"] = some ex
        ∧ "array" ∈ ex.types)
    ∧ (∃ pp, getPath (apply_manual_rules s) ["Boundaries", "PostProcessing"] = some pp
        ∧ "NSample" ∈ pp.required)
    ∧ (∃ ns, getPath (apply_manual_rules s) ["Boundaries", "PostProcessing", "NSample"] = some ns
        ∧ "number" ∈ ns.types)
    ∧ (apply_manual_rules s).enum = s.enum
    ∧ (apply_manual_rules s).minItems = s.minItems
    ∧ (∀ k, k ∉ ["Problem", "Solver", "Boundaries"] →
        alookup k (apply_manual_rules s).propsD = alookup k s.propsD) := by
  refine ⟨?_, ?_, ?_, ?_, ?_, ?_, ?_, ?_, ?_⟩
  · -- required set is exactly the old one plus the five sections
    intro x
    have hr : (apply_manual_rules s).required =
        sInsertAll s.required ["Problem", "Model", "Domains", "Boundaries", "Solver"] := by
      rw [apply_manual_rules_eq, modifyPath_cons_required, amrS5,
        modifyPath_cons_required, amrS4, modifyPath_cons_required, amrS3,
        modifyPath_cons_required, amrS2, modifyPath_cons_required, amrS1,
        Schema.setRequired_required]
    rw [hr, mem_sInsertAll]
  · -- Problem.Type
    have hkeep : getPath (apply_manual_rules s) ["Problem", "Type"] =
        getPath (amrS2 s) ["Problem", "Type"] := by
      rw [apply_manual_rules_eq,
        getPath_modifyPath_ne "Boundaries" "Problem" (by decide),
        amrS5, getPath_modifyPath_ne "Boundaries" "Problem" (by decide),
        amrS4, getPath_modifyPath_ne "Solver" "Problem" (by decide),
        amrS3, getPath_modifyPath_ne "Solver" "Problem" (by decide)]
    have hself : getPath (amrS2 s) ["Problem", "Type"] =
        some (ensure_enum (pathNodeD (amrS1 s) ["Problem", "Type"])
          ["Driven", "Transient"]) := by
      rw [amrS2]
      exact getPath_modifyPath_self _ _ (amrS1_wf hs)
    refine ⟨_, hkeep.trans hself, ?_, ?_, ?_⟩
    · rw [ensure_enum_enum, mem_sInsertAll]; right; decide
    · rw [ensure_enum_enum, mem_sInsertAll]; right; decide
    · rw [ensure_enum_types]; exact sInsert_self_mem _ _
  · -- Solver.Sweep.Type
    have hkeep : getPath (apply_manual_rules s) ["Solver", "Sweep", "Type"] =
        getPath (amrS4 s) ["Solver", "Sweep", "Type"] := by
      rw [apply_manual_rules_eq,
        getPath_modifyPath_ne "Boundaries" "Solver" (by decide),
        amrS5, getPath_modifyPath_ne "Boundaries" "Solver" (by decide)]
    have hstep : getPath (amrS4 s) ["Solver", "Sweep", "Type"] =
        getPath (amrS3 s) ["Solver", "Sweep", "Type"] := by
      rw [amrS4, getPath_modifyPath_cons _ _ _ _ (amrS3_wf hs),
        getPath_modifyPath_ne "Excitations" "Sweep" (by decide),
        getPath_cons (amrS3 s)]
      cases hl : alookup "Solver" (amrS3 s).propsD with
      | none => simp [getPath_empty_cons]
      | some c => simp
    have hself : getPath (amrS3 s) ["Solver", "Sweep", "Type"] =
        some (ensure_enum (pathNodeD (amrS2 s) ["Solver", "Sweep", "Type"])
          ["Uniform", "Adaptive"]) := by
      rw [amrS3]
      exact getPath_modifyPath_self _ _ (amrS2_wf hs)
    refine ⟨_, (hkeep.trans hstep).trans hself, ?_, ?_, ?_⟩
    · rw [ensure_enum_enum, mem_sInsertAll]; right; decide
    · rw [ensure_enum_enum, mem_sInsertAll]; right; decide
    · rw [ensure_enum_types]; exact sInsert_self_mem _ _
  · -- Solver.Excitations
    have hkeep : getPath (apply_manual_rules s) ["Solver", "Excitations"] =
        getPath (amrS4 s) ["Solver", "Excitations"] := by
      rw [apply_manual_rules_eq,
        getPath_modifyPath_ne "Boundaries" "Solver" (by decide),
        amrS5, getPath_modifyPath_ne "Boundaries" "Solver" (by decide)]
    have hself : getPath (amrS4 s) ["Solver", "Excitations"] =
        some (ensure_array (pathNodeD (amrS3 s) ["Solver", "Excitations"])) := by
      rw [amrS4]
      exact getPath_modifyPath_self _ _ (amrS3_wf hs)
    refine ⟨_, hkeep.trans hself, ?_⟩
    rw [ensure_array_types]
    exact sInsert_self_mem _ _
  · -- Boundaries.PostProcessing requires NSample
    have hfinal : getPath (apply_manual_rules s) ["Boundaries", "PostProcessing"] =
        some (modifyPath (pathNodeD (amrS5 s) ["Boundaries", "PostProcessing"])
          ["NSample"] (fun n => n.addType "number")) := by
      rw [apply_manual_rules_eq,
        getPath_modifyPath_cons _ _ _ _ (amrS5_wf hs),
        getPath_modifyPath_cons _ _ _ _ (childD_wf (amrS5_wf hs) "Boundaries")]
      rfl
    have hpp5 : getPath (amrS5 s) ["Boundaries", "PostProcessing"] =
        some ((pathNodeD (amrS4 s) ["Boundaries", "PostProcessing"]).setRequired
          (sInsert "NSample"
            (pathNodeD (amrS4 s) ["Boundaries", "PostProcessing"]).required)) := by
      rw [amrS5]
      exact getPath_modifyPath_self _ _ (amrS4_wf hs)
    have hnode := getPath_eq_pathNodeD _ _ _ hpp5
    refine ⟨_, hfinal, ?_⟩
    rw [modifyPath_cons_required, hnode, Schema.setRequired_required]
    exact sInsert_self_mem _ _
  · -- Boundaries.PostProcessing.NSample is a number
    have hself : getPath (apply_manual_rules s) ["Boundaries", "PostProcessing", "NSample"] =
        some ((pathNodeD (amrS5 s) ["Boundaries", "PostProcessing", "NSample"]).addType
          "number") := by
      rw [apply_manual_rules_eq]
      exact getPath_modifyPath_self _ _ (amrS5_wf hs)
    refine ⟨_, hself, ?_⟩
    rw [Schema.addType_types]
    exact sInsert_self_mem _ _
  · -- root enum untouched
    rw [apply_manual_rules_eq, modifyPath_cons_enum, amrS5, modifyPath_cons_enum,
      amrS4, modifyPath_cons_enum, amrS3, modifyPath_cons_enum, amrS2,
      modifyPath_cons_enum, amrS1, Schema.setRequired_enum]
  · -- root minItems untouched
    rw [apply_manual_rules_eq, modifyPath_cons_minItems, amrS5, modifyPath_cons_minItems,
      amrS4, modifyPath_cons_minItems, amrS3, modifyPath_cons_minItems, amrS2,
      modifyPath_cons_minItems, amrS1, Schema.setRequired_minItems]
  · -- other top-level sections untouched
    intro k hk
    simp only [List.mem_cons, List.mem_singleton, not_or] at hk
    obtain ⟨hk1, hk2, hk3, _⟩ := hk
    rw [apply_manual_rules_eq, modifyPath_cons_propsD,
      alookup_sput_ne _ _ _ hk3, amrS5, modifyPath_cons_propsD,
      alookup_sput_ne _ _ _ hk3, amrS4, modifyPath_cons_propsD,
      alookup_sput_ne _ _ _ hk2, amrS3, modifyPath_cons_propsD,
      alookup_sput_ne _ _ _ hk2, amrS2, modifyPath_cons_propsD,
      alookup_sput_ne _ _ _ hk1, amrS1, Schema.setRequired_propsD]

/-- Witness for C4 at the empty schema. -/
theorem c4_apply_manual_rules_witness :
    Schema.WF Schema.empty
    ∧ (∃ pt, getPath (apply_manual_rules Schema.empty) ["Problem", "Type"] = some pt
        ∧ "Driven" ∈ pt.enum ∧ "Transient" ∈ pt.enum ∧ "string" ∈ pt.types) :=
  ⟨Schema.WF.empty_wf, (c4_apply_manual_rules Schema.empty Schema.WF.empty_wf).2.1⟩

/-! ### Key-path recording, report rendering, and `main` (claims C2, C7) -/

/-- Joint model of the two parallel dictionaries `path_types` /
`path_files` of the source (they are always updated together on the same
key): a key-sorted map from a key path to its (type set, file set). -/
def RM : Type := List (String × (List String × List String))

/-- Python `path_types[path].add(t); path_files[path].add(f)` on the joint map. -/
def rmAdd (m : RM) (p : String) (t : String) (f : String) : RM :=
  sput (fun o =>
    ((sInsert t (o.getD ([], [])).1, sInsert f (o.getD ([], [])).2))) p m

mutual
/-- Function `record_paths` from `src/tools/infer_schema.py`: record the kind and
file at this key path, then recurse into object values with `path.key`
paths and into array values with the `path[]` item path. -/
def record_paths (path : String) (value : JVal) (file : String) (m : RM) : RM :=
  let m1 := rmAdd m path (value_type value) file
  match value with
  | .obj fields => recordFields path fields file m1
  | .arr elems => recordElems (if path = "" then "[]" else path ++ "[]") elems file m1
  | _ => m1
termination_by (sizeOf value, 0)

/-- The `for key, child in value.items()` loop of `record_paths`. -/
def recordFields (path : String) (fields : List (String × JVal)) (file : String)
    (m : RM) : RM :=
  match fields with
  | [] => m
  | (k, c) :: rest =>
    recordFields path rest file
      (record_paths (if path = "" then k else path ++ "." ++ k) c file m)
termination_by (sizeOf fields, 1)

/-- The `for item in value` loop of `record_paths`. -/
def recordElems (ipath : String) (elems : List JVal) (file : String) (m : RM) : RM :=
  match elems with
  | [] => m
  | x :: rest => recordElems ipath rest file (record_paths ipath x file m)
termination_by (sizeOf elems, 1)
end

mutual
/-- The (path, kind) pairs contributed by one value, in traversal order
(a pure view of what `record_paths` inserts). -/
def contribs (path : String) (value : JVal) : List (String × String) :=
  (path, value_type value) ::
    (match value with
     | .obj fields => contribsFields path fields
     | .arr elems => contribsElems (if path = "" then "[]" else path ++ "[]") elems
     | _ => [])
termination_by (sizeOf value, 0)

def contribsFields (path : String) (fields : List (String × JVal)) :
    List (String × String) :=
  match fields with
  | [] => []
  | (k, c) :: rest =>
    contribs (if path = "" then k else path ++ "." ++ k) c ++ contribsFields path rest
termination_by (sizeOf fields, 1)

def contribsElems (ipath : String) (elems : List JVal) : List (String × String) :=
  match elems with
  | [] => []
  | x :: rest => contribs ipath x ++ contribsElems ipath rest
termination_by (sizeOf elems, 1)
end

def insertAllRM (m : RM) (cs : List (String × String)) (file : String) : RM :=
  cs.foldl (fun acc pt => rmAdd acc pt.1 pt.2 file) acc0
where acc0 := m

theorem insertAllRM_def (m : RM) (cs : List (String × String)) (file : String) :
    insertAllRM m cs file = cs.foldl (fun acc pt => rmAdd acc pt.1 pt.2 file) m := rfl

theorem insertAllRM_append (m : RM) (a b : List (String × String)) (file : String) :
    insertAllRM m (a ++ b) file = insertAllRM (insertAllRM m a file) b file := by
  rw [insertAllRM_def, insertAllRM_def, insertAllRM_def, List.foldl_append]

/-- Unrolling: `record_paths` is the insertion of its pure contribution list. -/
theorem record_paths_eq_insertAll : ∀ (n : Nat) (value : JVal), sizeOf value ≤ n →
    ∀ (path file : String) (m : RM),
      record_paths path value file m = insertAllRM m (contribs path value) file := by
  intro n
  induction n with
  | zero =>
    intro v h
    have := JVal.one_le_sizeOf_val v
    omega
  | succ n ih =>
    intro v hv path file m
    cases v with
    | obj fields =>
      rw [record_paths, contribs]
      rw [insertAllRM_def, List.foldl_cons, ← insertAllRM_def]
      have haux : ∀ (fs : List (String × JVal)) (m' : RM),
          (∀ (k : String) (c : JVal), (k, c) ∈ fs → ∀ (p' : String) (m'' : RM),
            record_paths p' c file m'' = insertAllRM m'' (contribs p' c) file) →
          recordFields path fs file m' = insertAllRM m' (contribsFields path fs) file := by
        intro fs
        induction fs with
        | nil => intro m' _; rw [recordFields, contribsFields, insertAllRM_def]; rfl
        | cons hd rest ihf =>
          intro m' hrec
          obtain ⟨k, c⟩ := hd
          rw [recordFields, contribsFields, insertAllRM_append,
            hrec k c (List.mem_cons_self _ _),
            ihf _ (fun k' c' hk' => hrec k' c' (List.mem_cons_of_mem _ hk'))]
      refine haux fields _ ?_
      intro k c hk p' m''
      have hsz := JVal.sizeOf_field_lt hk
      exact ih c (by simp only [JVal.obj.sizeOf_spec] at hsz hv; omega) p' file m''
    | arr elems =>
      rw [record_paths, contribs]
      rw [insertAllRM_def, List.foldl_cons, ← insertAllRM_def]
      have haux : ∀ (es : List JVal) (m' : RM),
          (∀ x ∈ es, ∀ (p' : String) (m'' : RM),
            record_paths p' x file m'' = insertAllRM m'' (contribs p' x) file) →
          recordElems (if path = "" then "[]" else path ++ "[]") es file m' =
            insertAllRM m' (contribsElems (if path = "" then "[]" else path ++ "[]") es)
              file := by
        intro es
        induction es with
        | nil => intro m' _; rw [recordElems, contribsElems, insertAllRM_def]; rfl
        | cons x rest ihe =>
          intro m' hrec
          rw [recordElems, contribsElems, insertAllRM_append,
            hrec x (List.mem_cons_self _ _),
            ihe _ (fun y hy => hrec y (List.mem_cons_of_mem _ hy))]
      refine haux elems _ ?_
      intro x hx p' m''
      have hsz := JVal.sizeOf_elem_lt hx
      exact ih x (by simp only [JVal.arr.sizeOf_spec] at hsz hv; omega) p' file m''
    | null =>
      rw [record_paths, contribs, insertAllRM_def, List.foldl_cons]
      all_goals try (intro _ hcc; cases hcc)
      rfl
    | bool b =>
      rw [record_paths, contribs, insertAllRM_def, List.foldl_cons]
      all_goals try (intro _ hcc; cases hcc)
      rfl
    | num nn =>
      rw [record_paths, contribs, insertAllRM_def, List.foldl_cons]
      all_goals try (intro _ hcc; cases hcc)
      rfl
    | str st =>
      rw [record_paths, contribs, insertAllRM_def, List.foldl_cons]
      all_goals try (intro _ hcc; cases hcc)
      rfl
    | other =>
      rw [record_paths, contribs, insertAllRM_def, List.foldl_cons]
      all_goals try (intro _ hcc; cases hcc)
      rfl

theorem rmAdd_comm (m : RM) (p1 t1 f1 p2 t2 f2 : String) :
    rmAdd (rmAdd m p1 t1 f1) p2 t2 f2 = rmAdd (rmAdd m p2 t2 f2) p1 t1 f1 := by
  rw [rmAdd, rmAdd, rmAdd, rmAdd]
  apply sput_comm
  intro _ v
  obtain ⟨ts, fs⟩ := v.getD ([], [])
  simp only [Option.getD_some]
  rw [sInsert_comm t2 t1, sInsert_comm f2 f1]

/-- One file's recording step (`record_paths("", data, file, ...)`). -/
def recordFile (m : RM) (ex : String × JVal) : RM :=
  record_paths "" ex.2 ex.1 m

theorem recordFile_comm (m : RM) (a b : String × JVal) :
    recordFile (recordFile m a) b = recordFile (recordFile m b) a := by
  rw [recordFile, recordFile, recordFile, recordFile,
    record_paths_eq_insertAll (sizeOf a.2) a.2 (Nat.le_refl _),
    record_paths_eq_insertAll (sizeOf b.2) b.2 (Nat.le_refl _),
    record_paths_eq_insertAll (sizeOf a.2) a.2 (Nat.le_refl _),
    record_paths_eq_insertAll (sizeOf b.2) b.2 (Nat.le_refl _),
    insertAllRM_def, insertAllRM_def, insertAllRM_def, insertAllRM_def]
  exact foldl_foldl_swap _ _ _ _
    (fun c x _ y _ => rmAdd_comm c x.1 x.2 a.1 y.1 y.2 b.1) m

/-- Function `write_report` from `src/tools/infer_schema.py`: the fixed header,
then for each key path (in sorted order) a bullet with an optional
`(type conflict)` marker, the sorted kind list, and the sorted file
list. -/
def write_report_lines (m : RM) : List String :=
  ["# Schema Report", "", "## Key Paths", ""] ++
    (pySorted (m.map Prod.fst)).flatMap fun p =>
      match alookup p m with
      | some (ts, fs) =>
        ["- `" ++ p ++ "`" ++
            (if (pySorted ts).length > 1 then " (type conflict)" else ""),
          "  - Types: " ++ pyJoin ", " (pySorted ts),
          "  - Files:"] ++ (pySorted fs).map (fun fp => "    - " ++ fp)
      | none => []

/-- The full report text: `"\n".join(lines) + "\n"`. -/
def write_report_text (m : RM) : String :=
  pyJoin "\n" (write_report_lines m) ++ "\n"

/-- One configured example directory: whether it exists, and the JSON
files found under it by `rglob` (name and parsed content). -/
structure ExampleDir where
  present : Bool
  files : List (String × JVal)

/-- Function `load_examples`: skip missing directories, collect all JSON files of
the remaining ones in directory order. -/
def load_examples (dirs : List ExampleDir) : List (String × JVal) :=
  dirs.foldr (fun d acc => if d.present then d.files ++ acc else acc) []

def jObjFields : JOut → List (String × JOut)
  | .obj fs => fs
  | _ => []

/-- The schema built by `main`'s merge loop. -/
def mergedSchema (L : List (String × JVal)) : Schema :=
  L.foldl (fun acc ex => merge_schema acc ex.2) Schema.empty

/-- The joint `path_types`/`path_files` maps built by `main`'s record loop. -/
def recordedPaths (L : List (String × JVal)) : RM :=
  L.foldl recordFile []

/-- The schema document `main` serializes: the `$schema` and `title`
entries spliced with `schema_to_json`'s output (which is always an
object), then recursively key-sorted as `json.dumps(..., sort_keys=True)`
prints it.  The written bytes are a fixed function of this value. -/
def schemaDoc (L : List (String × JVal)) : JOut :=
  sortKeysJ (JOut.obj
    ([("$schema", JOut.str "https://json-schema.org/draft/2020-12/schema"),
      ("title", JOut.str "Palace Examples Schema")] ++
     jObjFields (schema_to_json (apply_manual_rules (mergedSchema L)))))

/-- The report text `main` writes. -/
def reportText (L : List (String × JVal)) : String :=
  write_report_text (recordedPaths L)

/-- Function `main` from `src/tools/infer_schema.py`: load the examples, abort
with `SystemExit` when none are found, otherwise produce the two
artifacts. -/
def main_run (dirs : List ExampleDir) : Except String (JOut × String) :=
  let examples := load_examples dirs
  if examples.isEmpty then Except.error "No example JSON files found."
  else Except.ok (schemaDoc examples, reportText examples)

/-- Both artifacts of the inference pipeline depend only on the multiset
of example files: reordering the enumeration permutes the fold, and every
fold step commutes. -/
theorem inference_outputs_perm_invariant (L1 L2 : List (String × JVal))
    (h : L1.Perm L2) :
    schemaDoc L1 = schemaDoc L2 ∧ reportText L1 = reportText L2 := by
  have hmerge : mergedSchema L1 = mergedSchema L2 :=
    foldl_perm (fun c x y => merge_comm x.2 y.2 c) h Schema.empty
  have hrec : recordedPaths L1 = recordedPaths L2 :=
    foldl_perm (fun c x y => recordFile_comm c x y) h []
  constructor
  · rw [schemaDoc, schemaDoc, hmerge]
  · rw [reportText, reportText, hrec]

/-- C2: schema inference is deterministic and idempotent.  `main_run` is
a pure function of the loaded example set, so two runs on the same inputs
are identical; moreover any two enumeration orders of the same example
files (permutations of the loaded list, covering both file-enumeration
order and the insertion order of the `examples` dict) produce identical
results: the same recursively key-sorted schema document (of which the
`json.dumps(..., sort_keys=True)` byte output is a fixed function) and
byte-identical report text.  The remaining set iterations of the source
all pass through `sorted(...)`. -/
theorem c2_main_deterministic (dirs1 dirs2 : List ExampleDir)
    (h : (load_examples dirs1).Perm (load_examples dirs2)) :
    main_run dirs1 = main_run dirs2 := by
  rw [main_run, main_run]
  cases hl1 : load_examples dirs1 with
  | nil =>
    rw [hl1] at h
    have hl2 := h.symm.eq_nil
    rw [hl2]
  | cons x rest =>
    rw [hl1] at h
    cases hl2 : load_examples dirs2 with
    | nil =>
      rw [hl2] at h
      exact absurd h.eq_nil (by simp)
    | cons y rest2 =>
      rw [hl2] at h
      simp only [List.isEmpty_cons, Bool.false_eq_true, if_neg]
      obtain ⟨hs, hr⟩ := inference_outputs_perm_invariant _ _ h
      rw [hs, hr]

/-- Witness for C2: one present directory whose two files are enumerated
in both orders. -/
theorem c2_main_deterministic_witness :
    (load_examples [⟨true, [("b.json", JVal.num 2), ("a.json", JVal.null)]⟩]).Perm
      (load_examples [⟨true, [("a.json", JVal.null), ("b.json", JVal.num 2)]⟩])
    ∧ main_run [⟨true, [("b.json", JVal.num 2), ("a.json", JVal.null)]⟩] =
      main_run [⟨true, [("a.json", JVal.null), ("b.json", JVal.num 2)]⟩] :=
  ⟨List.Perm.swap _ _ _,
    c2_main_deterministic _ _ (List.Perm.swap _ _ _)⟩

theorem load_examples_eq_nil_iff (dirs : List ExampleDir) :
    load_examples dirs = [] ↔ ∀ d ∈ dirs, d.present → d.files = [] := by
  induction dirs with
  | nil => simp [load_examples]
  | cons d rest ih =>
    rw [load_examples, List.foldr_cons]
    have hrest : rest.foldr (fun d acc => if d.present then d.files ++ acc else acc) [] =
        load_examples rest := rfl
    rw [hrest]
    cases hp : d.present with
    | false =>
      rw [if_neg (by simp)]
      rw [ih]
      constructor
      · intro h d' hd' hp'
        rcases List.mem_cons.mp hd' with hd' | hd'
        · subst hd'; rw [hp] at hp'; cases hp'
        · exact h d' hd' hp'
      · intro h d' hd' hp'
        exact h d' (List.mem_cons_of_mem _ hd') hp'
    | true =>
      rw [if_pos rfl, List.append_eq_nil, ih]
      constructor
      · rintro ⟨h1, h2⟩ d' hd' hp'
        rcases List.mem_cons.mp hd' with hd' | hd'
        · subst hd'; exact h1
        · exact h2 d' hd' hp'
      · intro h
        exact ⟨h d (List.mem_cons_self _ _) hp,
          fun d' hd' hp' => h d' (List.mem_cons_of_mem _ hd') hp'⟩

/-- C7: `main` raises its fatal `SystemExit` exactly when no example JSON
file exists under the configured (and present) example directories; with
at least one example file it proceeds and produces the two artifacts. -/
theorem c7_main_fails_iff_no_examples (dirs : List ExampleDir) :
    (∃ e, main_run dirs = Except.error e)
      ↔ ¬ ∃ d ∈ dirs, d.present = true ∧ d.files ≠ [] := by
  rw [main_run]
  have hiff := load_examples_eq_nil_iff dirs
  cases hl : load_examples dirs with
  | nil =>
    simp only [hl, List.isEmpty_nil, if_pos]
    constructor
    · intro _
      rintro ⟨d, hd, hp, hf⟩
      exact hf (hiff.mp hl d hd hp)
    · intro _
      exact ⟨_, rfl⟩
  | cons x rest =>
    simp only [hl, List.isEmpty_cons, if_neg]
    constructor
    · rintro ⟨e, he⟩
      cases he
    · intro hno
      exfalso
      have : ∀ d ∈ dirs, d.present → d.files = [] := by
        intro d hd hp
        by_contra hne
        exact hno ⟨d, hd, hp, hne⟩
      have := hiff.mpr this
      rw [hl] at this
      cases this

/-! ### The GUI application `src/app.py` (claims C1, C5, C6, C8) -/

/-- The three entries of `DEFAULT_TEMPLATES`, i.e. the run-mode combo
box's items (the combo only ever holds these three texts). -/
inductive RunMode where
  | mpi
  | slurm
  | custom
deriving Repr, DecidableEq

/-- The combo-box text of each mode (the `DEFAULT_TEMPLATES` keys). -/
def RunMode.text : RunMode → String
  | .mpi => "MPI (mpiexec)"
  | .slurm => "Slurm (srun + SBATCH)"
  | .custom => "Custom"

/-- Table `DEFAULT_TEMPLATES` from `src/app.py` (each value a `"\n".join`). -/
def DEFAULT_TEMPLATES : RunMode → String
  | .mpi => pyJoin "\n" ["# Run with MPI", "mpiexec -n 4 palace -c \"$CONFIG\""]
  | .slurm => pyJoin "\n"
      ["#SBATCH --job-name=palace", "#SBATCH --nodes=1", "#SBATCH --ntasks=4",
       "#SBATCH --time=01:00:00", "", "srun palace -c \"$CONFIG\""]
  | .custom => "# Write your custom command here"

/-- Python `saved_mode in DEFAULT_TEMPLATES`, returning which mode it names. -/
def parseMode (s : String) : Option RunMode :=
  if s = "MPI (mpiexec)" then some RunMode.mpi
  else if s = "Slurm (srun + SBATCH)" then some RunMode.slurm
  else if s = "Custom" then some RunMode.custom
  else none

/-- The in-memory GUI state behind the settings record: `self.project_dir`,
`self.gmsh_path`, the combo selection, the script editor text, the
geometry line-edit text. -/
structure GuiState where
  project_dir : String
  gmsh_path : String
  mode : RunMode
  script : String
  geometry : String
deriving Repr, DecidableEq

/-- The state after `__init__` builds the widgets: empty paths, first
combo item, the MPI template preloaded in the editor. -/
def initState : GuiState :=
  ⟨"", "", RunMode.mpi, DEFAULT_TEMPLATES RunMode.mpi, ""⟩

/-- Qt `mode_combo.setCurrentText(m)` plus the `currentTextChanged` wiring:
Qt emits the signal only when the text actually changes, and
`_on_mode_changed` then resets the script editor to the mode's default
template. -/
def setMode (s : GuiState) (m : RunMode) : GuiState :=
  if m = s.mode then s
  else { s with mode := m, script := DEFAULT_TEMPLATES m }

/-- The five-field settings record persisted in `settings.json`. -/
structure SettingsRec where
  project_dir : String
  gmsh_path : String
  run_mode : String
  script_template : String
  geometry_file : String
deriving Repr, DecidableEq

/-- Method `_save_settings`: the JSON object written (wholesale) to
`settings.json`.  Python's `str.strip()` on the geometry text is modelled
by `String.trim` (both remove leading/trailing whitespace). -/
def save_settings (s : GuiState) : SettingsRec :=
  ⟨s.project_dir, s.gmsh_path, s.mode.text, s.script, s.geometry.trim⟩

/-- Method `_load_settings` applied to a successfully parsed settings record
(`settings.get` defaults already folded into the record: a missing
`script_template` key and an empty one are both falsy and behave
identically). -/
def load_settings_rec (r : SettingsRec) (s : GuiState) : GuiState :=
  let s1 := { s with project_dir := r.project_dir, gmsh_path := r.gmsh_path }
  let s2 :=
    match parseMode r.run_mode with
    | some m => setMode s1 m
    | none => s1
  let s3 := if r.script_template ≠ "" then { s2 with script := r.script_template } else s2
  { s3 with geometry := r.geometry_file }

/-- The observable states of the settings file when `_load_settings` runs. -/
inductive SettingsFile where
  | missing
  | malformed
  | parsed (r : SettingsRec)

/-- Method `_load_settings`: a missing file returns immediately; malformed JSON
(`json.JSONDecodeError`) is swallowed by the `except` and returns; a
parsed record is applied to the widgets. -/
def load_settings : SettingsFile → GuiState → GuiState
  | .missing, s => s
  | .malformed, s => s
  | .parsed r, s => load_settings_rec r s

/-- The five in-memory fields read back as a record (what the round-trip
claim compares against the saved record). -/
def stateRecord (s : GuiState) : SettingsRec :=
  ⟨s.project_dir, s.gmsh_path, s.mode.text, s.script, s.geometry⟩

/-- C8: malformed settings JSON is silently ignored: `_load_settings`
changes nothing on any state, and in the `__init__` context the fields
stay at their defaults (empty project/gmsh/geometry paths, the MPI mode,
the MPI default template). -/
theorem c8_malformed_settings_ignored :
    (∀ s : GuiState, load_settings SettingsFile.malformed s = s)
    ∧ load_settings SettingsFile.malformed initState = initState
    ∧ initState.project_dir = "" ∧ initState.gmsh_path = ""
    ∧ initState.mode = RunMode.mpi
    ∧ initState.script = DEFAULT_TEMPLATES RunMode.mpi
    ∧ initState.geometry = "" :=
  ⟨fun _ => rfl, rfl, rfl, rfl, rfl, rfl, rfl⟩

theorem parseMode_text : ∀ m : RunMode, parseMode m.text = some m := by
  intro m
  cases m <;> simp +decide [parseMode, RunMode.text]

/-- C1 counterexample: with an empty script template (the user cleared
the editor), saving and then loading on a fresh start does not reproduce
the record: the empty `script_template` is falsy, so `_load_settings`
keeps the editor's default MPI template. -/
theorem c1_roundtrip_counterexample :
    stateRecord (load_settings (SettingsFile.parsed (save_settings
      { initState with script := "" })) initState)
      ≠ save_settings { initState with script := "" } := by
  simp +decide [stateRecord, load_settings, load_settings_rec, save_settings,
    initState, parseMode, setMode, RunMode.text, DEFAULT_TEMPLATES, pyJoin]

/-- C1 (amended): for every GUI state whose script template is non-empty,
saving the settings and loading them into a fresh start (`__init__`
state) reproduces the saved record exactly in memory. -/
theorem c1_roundtrip_amended (s : GuiState) (h : s.script ≠ "") :
    stateRecord (load_settings (SettingsFile.parsed (save_settings s)) initState)
      = save_settings s := by
  obtain ⟨pd, gm, m, sc, ge⟩ := s
  simp only [save_settings, load_settings, load_settings_rec, parseMode_text,
    stateRecord] at h ⊢
  cases m <;> simp +decide [setMode, RunMode.text, initState, h]

/-- Witness for the amended C1 at the initial state (whose MPI template
is non-empty). -/
theorem c1_roundtrip_amended_witness :
    initState.script ≠ ""
    ∧ stateRecord (load_settings (SettingsFile.parsed (save_settings initState))
        initState) = save_settings initState :=
  ⟨by decide, c1_roundtrip_amended initState (by decide)⟩

/-- The script text `_generate_script` writes (`"\n".join` of the fixed
preamble lines, a blank separator, the stripped template body and a
trailing newline).  `project_dir.as_posix()` is modelled by the path
string itself; `str.strip()` by `String.trim`. -/
def script_content (project_dir : String) (template : String) : String :=
  pyJoin "\n"
    ["#!/usr/bin/env bash",
     "set -e",
     "SCRIPT_DIR=\"$(cd \"$(dirname \"$0\")\" && pwd)\"",
     "cd \"$SCRIPT_DIR\"",
     "PROJECT_DIR=\"" ++ project_dir ++ "\"",
     "CONFIG=\"$PROJECT_DIR/config.json\"",
     "cd \"$PROJECT_DIR\"",
     "",
     template.trim,
     ""]

/-- The file-system outcome of `_generate_script`: the path written and
its content. -/
structure GenOutcome where
  scriptPath : String
  content : String
deriving Repr, DecidableEq

/-- Method `_generate_script`: refuse (dialog, no write) when no project
directory is set; otherwise write the script content to
`run_palace.sh` inside the project directory. -/
def generate_script (s : GuiState) : Option GenOutcome :=
  if s.project_dir = "" then none
  else some ⟨s.project_dir ++ "/run_palace.sh", script_content s.project_dir s.script⟩

/-- The chmod step after the write: on non-Windows (`os.name != "nt"`)
the executable bits 0o111 are OR-ed into the file's current mode. -/
def chmod_after_write (isWindows : Bool) (mode : Nat) : Nat :=
  if isWindows then mode else mode ||| 0o111

/-- C5: for every project directory and template body the generated
script text begins with the `#!/usr/bin/env bash` line and contains the
literal substring `CONFIG=`. -/
theorem c5_script_shebang_and_config (pd tb : String) :
    (∃ rest, script_content pd tb = "#!/usr/bin/env bash" ++ "\n" ++ rest)
    ∧ (∃ a b, script_content pd tb = a ++ "CONFIG=" ++ b) := by
  constructor
  · exact ⟨pyJoin "\n"
      ["set -e",
       "SCRIPT_DIR=\"$(cd \"$(dirname \"$0\")\" && pwd)\"",
       "cd \"$SCRIPT_DIR\"",
       "PROJECT_DIR=\"" ++ pd ++ "\"",
       "CONFIG=\"$PROJECT_DIR/config.json\"",
       "cd \"$PROJECT_DIR\"",
       "",
       tb.trim,
       ""], rfl⟩
  · refine ⟨"#!/usr/bin/env bash" ++ "\n" ++ ("set -e" ++ "\n" ++
      ("SCRIPT_DIR=\"$(cd \"$(dirname \"$0\")\" && pwd)\"" ++ "\n" ++
        ("cd \"$SCRIPT_DIR\"" ++ "\n" ++ ("PROJECT_DIR=\"" ++ (pd ++ ("\"" ++ "\n")))))),
      "\"$PROJECT_DIR/config.json\"" ++ "\n" ++
        pyJoin "\n" ["cd \"$PROJECT_DIR\"", "", tb.trim, ""], ?_⟩
    apply String.ext
    have hsplit : ("CONFIG=\"$PROJECT_DIR/config.json\"" : String).data =
        ("CONFIG=" : String).data ++ ("\"$PROJECT_DIR/config.json\"" : String).data := by
      decide
    simp [script_content, pyJoin, String.data_append, hsplit, List.append_assoc]

/-- The fixed bash preamble of the specification: shebang, `set -e`,
script-directory resolution, the `PROJECT_DIR`/`CONFIG` variables and
the `cd` into the project directory. -/
def bashPreamble (pd : String) : String :=
  pyJoin "\n"
    ["#!/usr/bin/env bash",
     "set -e",
     "SCRIPT_DIR=\"$(cd \"$(dirname \"$0\")\" && pwd)\"",
     "cd \"$SCRIPT_DIR\"",
     "PROJECT_DIR=\"" ++ pd ++ "\"",
     "CONFIG=\"$PROJECT_DIR/config.json\"",
     "cd \"$PROJECT_DIR\""]

/-- C6: with a project directory set, `_generate_script` writes exactly
the fixed preamble followed by a blank line, the stripped user template
and a trailing newline, to `run_palace.sh` in the project directory; the
subsequent chmod ORs 0o111 into the existing mode on POSIX systems and
does nothing on Windows. -/
theorem c6_generate_script (s : GuiState) (h : s.project_dir ≠ "") :
    generate_script s = some
      ⟨s.project_dir ++ "/run_palace.sh",
        bashPreamble s.project_dir ++ "\n" ++ "\n" ++ s.script.trim ++ "\n"⟩
    ∧ (∀ mode : Nat, chmod_after_write false mode = mode ||| 0o111)
    ∧ (∀ mode : Nat, chmod_after_write true mode = mode) := by
  refine ⟨?_, fun mode => rfl, fun mode => rfl⟩
  rw [generate_script, if_neg h]
  refine congrArg some ?_
  refine congrArg (GenOutcome.mk (s.project_dir ++ "/run_palace.sh")) ?_
  apply String.ext
  simp [script_content, bashPreamble, pyJoin, String.data_append, List.append_assoc]

/-- Witness for C6 at a concrete state. -/
theorem c6_generate_script_witness :
    ({ initState with project_dir := "/proj" } : GuiState).project_dir ≠ ""
    ∧ (generate_script { initState with project_dir := "/proj" } = some
        ⟨({ initState with project_dir := "/proj" } : GuiState).project_dir
            ++ "/run_palace.sh",
          bashPreamble ({ initState with project_dir := "/proj" } :
              GuiState).project_dir
            ++ "\n" ++ "\n"
            ++ ({ initState with project_dir := "/proj" } : GuiState).script.trim
            ++ "\n"⟩
      ∧ (∀ mode : Nat, chmod_after_write false mode = mode ||| 0o111)
      ∧ (∀ mode : Nat, chmod_after_write true mode = mode)) :=
  ⟨by decide, c6_generate_script { initState with project_dir := "/proj" } (by decide)⟩

end PalaceGui
